import Mathlib

/-!
# Blackjack win-probability estimator: a shallow embedding of `src/main.cpp`

Conventions of the embedding.

* `int` is a 32-bit two's-complement integer.  In the `Hand` methods, which
  sum the values of arbitrary cards, every addition wraps around (`wrapInt`),
  as the compiled code does.  In the simulator and the aggregator the dealer
  totals and the occurrence counts of a query on undealt deck cards stay far
  from the 32-bit range (values at most 11, at most six draws, fewer than
  10^6 terminal calls) and are modelled by the unbounded `Int`.  Counters
  that start at zero and are only incremented (`aces`, `depth`,
  `currentCard`) are `Nat`.
* `std::vector<Card>` is `List Card`; `Hand` is its private vector.
* `std::map<int,int>` is an association list kept in strictly increasing key
  order, which is the order in which the source iterates over it.
* A `double` is modelled by the rational number it denotes.  The conversion
  of a 32-bit `int` to `double` is exact; every `double` division and
  multiplication is the exact rational operation followed by IEEE-754
  round-to-nearest-even to 53 significant bits (`roundDouble`).  The quotient
  of two 32-bit integers and its product with 100 are far from the overflow
  and subnormal ranges, so the exponent is left unbounded.
* An out-of-range `vector::operator[]` is modelled by `none`.
-/

namespace BlackJack

/-! ## Card, Deck, Hand -/

/-- The source's `struct Card`. -/
structure Card where
  suit : String
  rank : String
  value : Int
deriving DecidableEq, Repr

/-- The array `suits` of `Deck::Deck`. -/
def suits : List String := ["Hearts", "Diamonds", "Clubs", "Spades"]

/-- The array `ranks` of `Deck::Deck`. -/
def ranks : List String :=
  ["A", "2", "3", "4", "5", "6", "7", "8", "9", "10", "J", "Q", "K"]

/-- The value given to the rank with index `i` in `Deck::Deck`. -/
def rankValue (i : Nat) : Int :=
  if i = 0 then 11 else if i ≥ 10 then 10 else (i : Int) + 1

/-- The source's `class Deck`: the card vector and the cursor `currentCard`. -/
structure Deck where
  cards : List Card
  currentCard : Nat
deriving DecidableEq, Repr

/-- The constructor `Deck::Deck`: suits outermost, the thirteen ranks inside. -/
def Deck.new : Deck :=
  { cards := suits.flatMap fun suit =>
      (List.range 13).map fun i => Card.mk suit (ranks.getD i "") (rankValue i)
    currentCard := 0 }

/-- The method `Deck::dealCard`: `cards[currentCard++]`, `none` when the index is out of range. -/
def Deck.dealCard (d : Deck) : Option (Card × Deck) :=
  match d.cards.get? d.currentCard with
  | some c => some (c, { d with currentCard := d.currentCard + 1 })
  | none => none

/-- The method `Deck::getRemainingCards`: the cards from index `currentCard` on. -/
def Deck.getRemainingCards (d : Deck) : List Card :=
  d.cards.drop d.currentCard

/-- The method `Deck::getCardsRemaining`: `cards.size() - currentCard`. -/
def Deck.getCardsRemaining (d : Deck) : Int :=
  (d.cards.length : Int) - (d.currentCard : Int)

/-- The source's `class Hand`: its only member is the vector of cards. -/
abbrev Hand := List Card

/-- The method `Hand::addCard`. -/
def Hand.addCard (h : Hand) (card : Card) : Hand := h ++ [card]

/-- The 32-bit `int` that an integer result wraps around to (two's complement). -/
def wrapInt (x : Int) : Int :=
  (x + 2147483648) % 4294967296 - 2147483648

/-- The first loop of `Hand::getValue`: raw sum of the values (`value += card.value` on `int`) and
number of cards of rank "A". -/
def sumAndAces (cards : List Card) : Int × Nat :=
  cards.foldl (fun acc card =>
    (wrapInt (acc.1 + card.value), if card.rank = "A" then acc.2 + 1 else acc.2)) (0, 0)

/-- The loop `while (value > 21 && aces > 0) { value -= 10; aces--; }` of `Hand::getValue`. -/
def reduceAces (value : Int) : Nat → Int
  | 0 => value
  | aces + 1 => if value > 21 then reduceAces (value - 10) aces else value

/-- The method `Hand::getValue`. -/
def Hand.getValue (h : Hand) : Int :=
  reduceAces (sumAndAces h).1 (sumAndAces h).2

/-- The loop of `Hand::isSoft`: raw sum of the values and the flag `hasAce`. -/
def sumAndHasAce (cards : List Card) : Int × Bool :=
  cards.foldl (fun acc card =>
    (wrapInt (acc.1 + card.value), if card.rank = "A" then true else acc.2)) (0, false)

/-- The method `Hand::isSoft`: `hasAce && value <= 21 && (value - 10) <= 11` on the raw sum. -/
def Hand.isSoft (h : Hand) : Bool :=
  (sumAndHasAce h).2 && decide ((sumAndHasAce h).1 ≤ 21) &&
    decide ((sumAndHasAce h).1 - 10 ≤ 11)

/-- The method `Hand::isBlackjack`. -/
def Hand.isBlackjack (h : Hand) : Bool :=
  decide (h.length = 2) && decide (Hand.getValue h = 21)

/-- The method `Hand::isBust`. -/
def Hand.isBust (h : Hand) : Bool :=
  decide (Hand.getValue h > 21)

/-- The method `Hand::getCard`: `cards[index]`, `none` when the index is out of range. -/
def Hand.getCard (h : Hand) (index : Nat) : Option Card :=
  h.get? index

/-! ## ProbabilityCalculator -/

/-- The source's `map<int,int>`: entries in strictly increasing key order. -/
abbrev IntMap := List (Int × Int)

/-- The statement `m[k]++` on a `map<int,int>`: a missing key is created with count 0 first. -/
def incr : IntMap → Int → IntMap
  | [], k => [(k, 1)]
  | (k', c) :: rest, k =>
    if k < k' then (k, 1) :: (k', c) :: rest
    else if k = k' then (k', c + 1) :: rest
    else (k', c) :: incr rest k

/-- The grouping loop of `simulateDealerHands`: `cardValueCounts[card.value]++` for each card. -/
def cardValueCounts (remaining : List Card) : IntMap :=
  remaining.foldl (fun m card => incr m card.value) []

/-- The `find_if` and `erase` of `simulateDealerHands`: the vector without its first card of
value `cardValue`, `none` when `find_if` returns `end()`. -/
def eraseFirstOfValue : List Card → Int → Option (List Card)
  | [], _ => none
  | c :: rest, cardValue =>
    if c.value = cardValue then some rest
    else (eraseFirstOfValue rest cardValue).map (c :: ·)

/-- The total after drawing a card of value `cardValue`, with the ace adjustment
`if (newValue > 21 && cardValue == 11) newValue -= 10`. -/
def drawValue (dealerValue cardValue : Int) : Int :=
  if dealerValue + cardValue > 21 ∧ cardValue = 11 then dealerValue + cardValue - 10
  else dealerValue + cardValue

/-- The terminal step `outcomes[dealerValue]++; total++;`. -/
def record (st : IntMap × Int) (dealerValue : Int) : IntMap × Int :=
  (incr st.1 dealerValue, st.2 + 1)

/-- The function `ProbabilityCalculator::simulateDealerHands`.  The reference parameters
`outcomes` and `total` are the threaded state `st`.  The local `weight` is computed by the source
and never read, so it has no effect on the state. -/
def simulateDealerHands (dealerValue : Int) (remaining : List Card)
    (st : IntMap × Int) (depth : Nat) : IntMap × Int :=
  if _h : depth > 5 then record st dealerValue
  else if dealerValue ≥ 17 then record st dealerValue
  else if remaining.isEmpty then record st dealerValue
  else
    (cardValueCounts remaining).foldl (fun st cardCount =>
      match eraseFirstOfValue remaining cardCount.1 with
      | some newRemaining =>
        simulateDealerHands (drawValue dealerValue cardCount.1) newRemaining st (depth + 1)
      | none => st) st
termination_by 6 - depth
decreasing_by omega

/-- The counting loop of `calculateWinProbability` (lines 159-176): `(wins, losses, ties)`. -/
def countOutcomes (playerValue : Int) (dealerOutcomes : IntMap) : Int × Int × Int :=
  dealerOutcomes.foldl (fun acc outcome =>
    if outcome.1 > 21 then (acc.1 + outcome.2, acc.2.1, acc.2.2)
    else if playerValue > outcome.1 then (acc.1 + outcome.2, acc.2.1, acc.2.2)
    else if playerValue < outcome.1 then (acc.1, acc.2.1 + outcome.2, acc.2.2)
    else (acc.1, acc.2.1, acc.2.2 + outcome.2)) (0, 0, 0)

/-- Rounding of a rational to the nearest integer, ties to the even one. -/
def roundNearestEven (m : ℚ) : Int :=
  if m - ⌊m⌋ < 1 / 2 then ⌊m⌋
  else if 1 / 2 < m - ⌊m⌋ then ⌊m⌋ + 1
  else if ⌊m⌋ % 2 = 0 then ⌊m⌋ else ⌊m⌋ + 1

/-- The `double` nearest to a rational (IEEE-754 binary64, round-to-nearest-even): the rational
is scaled by the power of two that brings it into `[2^52, 2^53)`, rounded to an integer and scaled
back. -/
def roundDouble (q : ℚ) : ℚ :=
  if q = 0 then 0
  else (roundNearestEven (q / 2 ^ (Int.log 2 |q| - 52)) : ℚ) * 2 ^ (Int.log 2 |q| - 52)

/-- Lines 158-179 of `calculateWinProbability`: the percentage computed from the player's total,
the outcome map and `totalSimulations` by `(double)wins / totalSimulations * 100.0`, rounded
after the division and after the multiplication. -/
def winPercentage (playerValue : Int) (dealerOutcomes : IntMap) (totalSimulations : Int) : ℚ :=
  if totalSimulations = 0 then 0
  else roundDouble (roundDouble
    (((countOutcomes playerValue dealerOutcomes).1 : ℚ) / (totalSimulations : ℚ)) * 100)

/-- The function `ProbabilityCalculator::calculateWinProbability`; `none` stands for the
out-of-range `dealerHand.getCard(1)` of a dealer hand with fewer than two cards. -/
def calculateWinProbability (playerHand dealerHand : Hand) (remainingCards : List Card) :
    Option ℚ :=
  if Hand.isBust playerHand then some 0
  else
    match Hand.getCard dealerHand 1 with
    | none => none
    | some _dealerUpCard =>
      let sim := simulateDealerHands (Hand.getValue dealerHand) remainingCards ([], 0) 0
      some (winPercentage (Hand.getValue playerHand) sim.1 sim.2)

/-! ## Derived objects used to state the properties -/

/-- The terminal calls of the enumeration started at `(dealerValue, remaining)` with `levels`
recursion levels left before the depth cap (`levels = 6 - depth`), in the order the source reaches
them: for each, the total it records and the undealt cards it still holds. -/
def leaves : Nat → Int → List Card → List (Int × List Card)
  | 0, dealerValue, remaining => [(dealerValue, remaining)]
  | levels + 1, dealerValue, remaining =>
    if dealerValue ≥ 17 then [(dealerValue, remaining)]
    else if remaining.isEmpty then [(dealerValue, remaining)]
    else
      (cardValueCounts remaining).flatMap fun cardCount =>
        match eraseFirstOfValue remaining cardCount.1 with
        | some newRemaining => leaves levels (drawValue dealerValue cardCount.1) newRemaining
        | none => []

/-- The state after recording the totals of a list of terminal calls, in order. -/
def recordAll (st : IntMap × Int) (ts : List (Int × List Card)) : IntMap × Int :=
  ts.foldl (fun st t => record st t.1) st

/-- Each element of a list together with the list without that occurrence. -/
def picks : List Card → List (Card × List Card)
  | [] => []
  | c :: rest => (c, rest) :: (picks rest).map fun p => (p.1, c :: p.2)

/-- Whether a final dealer total is a win for the player: above 21 or strictly below the
player's total. -/
def playerWins (playerTotal dealerFinal : Int) : Bool :=
  decide (dealerFinal > 21 ∨ dealerFinal < playerTotal)

/-- Specification-side reference, written from the claim's words and not from the source: the
exact probability that the dealer, drawing uniformly at random without replacement from `undealt`
and standing at a total of 17 or more or when no card is left (single-ace correction on each
draw), finishes above 21 or strictly below `playerTotal`.  The first argument bounds the number
of draws; `undealt.length` is always enough. -/
def exactWinFrom (playerTotal : Int) : Nat → Int → List Card → ℚ
  | 0, dealerTotal, _ => if playerWins playerTotal dealerTotal then 1 else 0
  | n + 1, dealerTotal, undealt =>
    if dealerTotal ≥ 17 ∨ undealt = [] then
      if playerWins playerTotal dealerTotal then 1 else 0
    else
      ((picks undealt).map fun p =>
        exactWinFrom playerTotal n (drawValue dealerTotal p.1.value) p.2).sum / undealt.length

/-- Specification-side reference: the exact win probability of a query. -/
def exactWinProbability (playerTotal dealerTotal : Int) (undealt : List Card) : ℚ :=
  exactWinFrom playerTotal undealt.length dealerTotal undealt

/-- Specification-side reference: the totals obtainable from a hand by valuing each card of rank
"A" as 1 or as 11 and every other card at its value. -/
def obtainableTotals : List Card → List Int
  | [] => [0]
  | c :: rest =>
    if c.rank = "A" then (obtainableTotals rest).flatMap fun t => [t + 1, t + 11]
    else (obtainableTotals rest).map fun t => t + c.value

/-- Specification-side reference: the total of a hand with every card of rank "A" valued 1. -/
def hardTotal : List Card → Int
  | [] => 0
  | c :: rest => (if c.rank = "A" then 1 else c.value) + hardTotal rest

/-- Specification-side reference: the win weight `W` of a distribution, the sum of the weights of
the dealer finals `d` with `d > 21` or `d < p`. -/
def winWeight (p : Int) (dist : IntMap) : Int :=
  ((dist.filter fun e => decide (e.1 > 21 ∨ e.1 < p)).map fun e => e.2).sum

/-- A card of the given suit, rank and value. -/
def card (suit rank : String) (value : Int) : Card := Card.mk suit rank value

/-- Six cards of value 10 and one ace: the undealt cards of the specification's example. -/
def sixTensOneAce : List Card :=
  [card "Hearts" "10" 10, card "Hearts" "J" 10, card "Hearts" "Q" 10, card "Hearts" "K" 10,
   card "Spades" "10" 10, card "Spades" "J" 10, card "Spades" "A" 11]

/-- Six cards of value 2 (more than one deck holds, but well-formed for the simulator). -/
def sixTwos : List Card := List.replicate 6 (card "Hearts" "2" 2)

/-- The 48 undealt cards of a fresh deck after the player was dealt the 10 and 7 of spades and
the dealer the 10 and 6 of hearts. -/
def undealt48 : List Card :=
  Deck.new.cards.filter fun c =>
    !(decide (c = card "Spades" "10" 10) || decide (c = card "Spades" "7" 7) ||
      decide (c = card "Hearts" "10" 10) || decide (c = card "Hearts" "6" 6))

/-- Specification-side reference: the blackjack value of a rank label: 11 for "A", the number for
"2" to "10", and 10 for "J", "Q" and "K". -/
def valueOfRank (rank : String) : Int :=
  if rank = "A" then 11
  else if rank = "2" then 2
  else if rank = "3" then 3
  else if rank = "4" then 4
  else if rank = "5" then 5
  else if rank = "6" then 6
  else if rank = "7" then 7
  else if rank = "8" then 8
  else if rank = "9" then 9
  else if rank = "10" then 10
  else if rank = "J" then 10
  else if rank = "Q" then 10
  else if rank = "K" then 10
  else 0

/-- The method `Deck::shuffle`: `std::shuffle` leaves the cards in an order `order` chosen by the
random generator (a permutation of the cards) and the cursor is reset to 0. -/
def Deck.shuffle (_d : Deck) (order : List Card) : Deck :=
  { cards := order, currentCard := 0 }

/-- The cards returned by `k` successive calls of `Deck::dealCard`, in order, and the deck after
them; `none` when one of the calls is out of range. -/
def Deck.dealCards : Nat → Deck → Option (List Card × Deck)
  | 0, d => some ([], d)
  | k + 1, d =>
    match d.dealCard with
    | none => none
    | some (c, d') =>
      match Deck.dealCards k d' with
      | none => none
      | some (cs, d'') => some (c :: cs, d'')

/-! ## BlackjackGame -/

/-- The members of `BlackjackGame` that a round changes (the bet is a constant). -/
structure Game where
  deck : Deck
  playerHand : Hand
  dealerHand : Hand
deriving DecidableEq, Repr

/-- The ways in which a call of `BlackjackGame::play` ends: the three early returns on
blackjacks, the early return on a player bust, the normal end after `determineWinner`, and
the player's turn blocked on its prompt because the input has run out. -/
inductive Ending where
  | bothBlackjack
  | playerBlackjack
  | dealerBlackjack
  | playerBust
  | settled
  | awaitingInput
deriving DecidableEq, Repr

/-- The statement `playerHand.addCard(deck.dealCard())`. -/
def Game.playerDraw (g : Game) : Option Game :=
  match g.deck.dealCard with
  | none => none
  | some (c, d) => some { g with deck := d, playerHand := Hand.addCard g.playerHand c }

/-- The statement `dealerHand.addCard(deck.dealCard())`. -/
def Game.dealerDraw (g : Game) : Option Game :=
  match g.deck.dealCard with
  | none => none
  | some (c, d) => some { g with deck := d, dealerHand := Hand.addCard g.dealerHand c }

/-- The method `BlackjackGame::playerTurn` on the characters read from the input: `h` or `H`
hits, `s` or `S` stands, any other character prompts again.  The flag tells whether the loop was
left (by a stand or a bust); it is false when the input ran out at the prompt.  The probability
shown after a hit is only printed and does not change the state. -/
def playerTurn : List Char → Game → Option (Game × Bool)
  | [], g => some (g, false)
  | choice :: input, g =>
    if choice = 'h' ∨ choice = 'H' then
      match g.playerDraw with
      | none => none
      | some g' => if Hand.isBust g'.playerHand then some (g', true) else playerTurn input g'
    else if choice = 's' ∨ choice = 'S' then some (g, true)
    else playerTurn input g

/-- The method `BlackjackGame::dealerTurn`: the dealer draws while the total is below 17. -/
def dealerTurn (g : Game) : Option Game :=
  if Hand.getValue g.dealerHand < 17 then
    match h : g.deck.dealCard with
    | none => none
    | some (c, d) => dealerTurn { g with deck := d, dealerHand := Hand.addCard g.dealerHand c }
  else some g
termination_by g.deck.cards.length - g.deck.currentCard
decreasing_by
  simp only [Deck.dealCard] at h
  split at h
  · rename_i c' hc
    cases h
    have := (List.get?_eq_some.mp hc).1
    simp only
    omega
  · cases h

/-- The method `BlackjackGame::play` of a freshly constructed game, for the card order `order`
left by the shuffle and the characters `input` typed by the player.  Printing, the probabilities
shown and the settlement message do not change the state and are left out. -/
def play (order : List Card) (input : List Char) : Option (Game × Ending) :=
  let g₀ : Game := { deck := Deck.shuffle Deck.new order, playerHand := [], dealerHand := [] }
  match g₀.playerDraw with
  | none => none
  | some g₁ =>
  match g₁.dealerDraw with
  | none => none
  | some g₂ =>
  match g₂.playerDraw with
  | none => none
  | some g₃ =>
  match g₃.dealerDraw with
  | none => none
  | some g =>
    if Hand.isBlackjack g.playerHand && Hand.isBlackjack g.dealerHand then
      some (g, Ending.bothBlackjack)
    else if Hand.isBlackjack g.playerHand then some (g, Ending.playerBlackjack)
    else if Hand.isBlackjack g.dealerHand then some (g, Ending.dealerBlackjack)
    else
      match playerTurn input g with
      | none => none
      | some (g', false) => some (g', Ending.awaitingInput)
      | some (g', true) =>
        if Hand.isBust g'.playerHand then some (g', Ending.playerBust)
        else
          match dealerTurn g' with
          | none => none
          | some g'' => some (g'', Ending.settled)

/-- A card valued as the deck's cards are: a card of rank "A" has value 11 and every value lies
between 1 and 11. -/
def wellValued (c : Card) : Prop :=
  (c.rank = "A" → c.value = 11) ∧ 1 ≤ c.value ∧ c.value ≤ 11

/-- No signed overflow in the summation loop of `Hand::getValue`: every running sum of the card
values lies in the range of a 32-bit `int`. -/
def sumsInRange (cards : List Card) : Prop :=
  ∀ k, k ≤ cards.length →
    -2147483648 ≤ ((cards.take k).map fun c => c.value).sum ∧
      ((cards.take k).map fun c => c.value).sum ≤ 2147483647

/-- The invariant of a round: the deck has 52 well-valued cards, the cursor counts the cards held
in the two hands, and the hands hold well-valued cards. -/
def roundInvariant (g : Game) : Prop :=
  g.deck.cards.length = 52 ∧ (∀ c ∈ g.deck.cards, wellValued c) ∧
  g.deck.currentCard = g.playerHand.length + g.dealerHand.length ∧
  (∀ c ∈ g.playerHand, wellValued c) ∧ (∀ c ∈ g.dealerHand, wellValued c)

/-! ## Helper lemmas -/

/-! ### Rounding to `double` -/

theorem roundNearestEven_bounds (m : ℚ) :
    ⌊m⌋ ≤ roundNearestEven m ∧ roundNearestEven m ≤ ⌊m⌋ + 1 := by
  unfold roundNearestEven
  split_ifs <;> constructor <;> omega

theorem roundNearestEven_intCast (n : Int) : roundNearestEven (n : ℚ) = n := by
  simp [roundNearestEven]

theorem roundNearestEven_mono {a b : ℚ} (h : a ≤ b) : roundNearestEven a ≤ roundNearestEven b := by
  have hf : ⌊a⌋ ≤ ⌊b⌋ := Int.floor_mono h
  rcases lt_or_eq_of_le hf with hlt | heq
  · have := (roundNearestEven_bounds a).2
    have := (roundNearestEven_bounds b).1
    omega
  · have hab : a - ⌊a⌋ ≤ b - ⌊b⌋ := by rw [heq]; linarith
    unfold roundNearestEven
    rw [heq] at hab ⊢
    split_ifs <;> first | omega | (exfalso; linarith)

theorem roundNearestEven_abs_sub (m : ℚ) : |(roundNearestEven m : ℚ) - m| ≤ 1 / 2 := by
  have h1 := Int.floor_le m
  have h2 := Int.lt_floor_add_one m
  unfold roundNearestEven
  rw [abs_le]
  split_ifs <;> push_cast <;> constructor <;> linarith

theorem log_two_bounds {q : ℚ} (hq : q ≠ 0) :
    (2 : ℚ) ^ Int.log 2 |q| ≤ |q| ∧ |q| < (2 : ℚ) ^ (Int.log 2 |q| + 1) := by
  have hpos : 0 < |q| := abs_pos.mpr hq
  have h1 := Int.zpow_log_le_self (b := 2) (r := |q|) (by norm_num) hpos
  have h2 := Int.lt_zpow_succ_log_self (b := 2) (by norm_num) |q|
  exact ⟨by simpa using h1, by simpa using h2⟩

theorem roundDouble_of_ne_zero {q : ℚ} (hq : q ≠ 0) :
    roundDouble q
      = (roundNearestEven (q / 2 ^ (Int.log 2 |q| - 52)) : ℚ) * 2 ^ (Int.log 2 |q| - 52) := by
  simp [roundDouble, hq]

/-- The relative rounding error of a `double` operation is at most `2^-53`. -/
theorem roundDouble_abs_sub_le (q : ℚ) : |roundDouble q - q| ≤ |q| / 2 ^ 53 := by
  by_cases hq : q = 0
  · subst hq; simp [roundDouble]
  · rw [roundDouble_of_ne_zero hq]
    obtain ⟨hlo, _⟩ := log_two_bounds hq
    generalize Int.log 2 |q| = e at hlo ⊢
    have hu : (0 : ℚ) < 2 ^ (e - 52) := by positivity
    have hm := roundNearestEven_abs_sub (q / 2 ^ (e - 52))
    have heq : (roundNearestEven (q / 2 ^ (e - 52)) : ℚ) * 2 ^ (e - 52) - q
        = ((roundNearestEven (q / 2 ^ (e - 52)) : ℚ) - q / 2 ^ (e - 52)) * 2 ^ (e - 52) := by
      field_simp
    rw [heq, abs_mul, abs_of_pos hu]
    have hsplit : (2 : ℚ) ^ e = 2 ^ (e - 52) * 2 ^ (52 : ℤ) := by
      rw [← zpow_add₀ (by norm_num : (2 : ℚ) ≠ 0)]; congr 1; ring
    have h52 : (2 : ℚ) ^ (52 : ℤ) = 2 ^ 52 := by norm_cast
    rw [hsplit, h52] at hlo
    calc |(roundNearestEven (q / 2 ^ (e - 52)) : ℚ) - q / 2 ^ (e - 52)| * 2 ^ (e - 52)
        ≤ 1 / 2 * 2 ^ (e - 52) := by gcongr
      _ = 2 ^ (e - 52) * 2 ^ 52 / 2 ^ 53 := by ring
      _ ≤ |q| / 2 ^ 53 := by gcongr

/-- A positive rational and its `double` lie in the same closed binade. -/
theorem roundDouble_pos_bounds {q : ℚ} (hq : 0 < q) :
    (2 : ℚ) ^ Int.log 2 q ≤ roundDouble q ∧ roundDouble q ≤ (2 : ℚ) ^ (Int.log 2 q + 1) := by
  have hne : q ≠ 0 := ne_of_gt hq
  obtain ⟨hlo, hhi⟩ := log_two_bounds hne
  rw [roundDouble_of_ne_zero hne]
  rw [abs_of_pos hq] at hlo hhi ⊢
  generalize Int.log 2 q = e at hlo hhi ⊢
  have hu : (0 : ℚ) < 2 ^ (e - 52) := by positivity
  have hsplit : (2 : ℚ) ^ e = 2 ^ (52 : ℕ) * 2 ^ (e - 52) := by
    rw [← zpow_natCast, ← zpow_add₀ (by norm_num : (2 : ℚ) ≠ 0)]; congr 1; push_cast; ring
  have hsplit' : (2 : ℚ) ^ (e + 1) = 2 ^ (53 : ℕ) * 2 ^ (e - 52) := by
    rw [← zpow_natCast, ← zpow_add₀ (by norm_num : (2 : ℚ) ≠ 0)]; congr 1; push_cast; ring
  have hm1 : ((2 ^ 52 : Int) : ℚ) ≤ q / 2 ^ (e - 52) := by
    have hc : ((2 ^ 52 : Int) : ℚ) = 2 ^ (52 : ℕ) := by norm_cast
    rw [le_div_iff₀ hu, hc, ← hsplit]; exact hlo
  have hm2 : q / 2 ^ (e - 52) ≤ ((2 ^ 53 : Int) : ℚ) := by
    have hc : ((2 ^ 53 : Int) : ℚ) = 2 ^ (53 : ℕ) := by norm_cast
    rw [div_le_iff₀ hu, hc, ← hsplit']; exact le_of_lt hhi
  have hr1 := roundNearestEven_mono hm1
  have hr2 := roundNearestEven_mono hm2
  rw [roundNearestEven_intCast] at hr1 hr2
  have hr1' : ((2 : ℚ) ^ (52 : ℕ)) ≤ (roundNearestEven (q / 2 ^ (e - 52)) : ℚ) := by
    exact_mod_cast hr1
  have hr2' : (roundNearestEven (q / 2 ^ (e - 52)) : ℚ) ≤ ((2 : ℚ) ^ (53 : ℕ)) := by
    exact_mod_cast hr2
  rw [hsplit, hsplit']
  constructor <;> gcongr

theorem roundDouble_zero : roundDouble 0 = 0 := by simp [roundDouble]

theorem roundDouble_nonneg {q : ℚ} (hq : 0 ≤ q) : 0 ≤ roundDouble q := by
  rcases eq_or_lt_of_le hq with h | h
  · rw [← h, roundDouble_zero]
  · exact le_trans (by positivity) (roundDouble_pos_bounds h).1

/-- Rounding to `double` is monotone on the non-negative rationals. -/
theorem roundDouble_mono {a b : ℚ} (ha : 0 ≤ a) (hab : a ≤ b) :
    roundDouble a ≤ roundDouble b := by
  rcases eq_or_lt_of_le ha with h | h
  · rw [← h, roundDouble_zero]; exact roundDouble_nonneg (le_trans ha hab)
  · have hb : 0 < b := lt_of_lt_of_le h hab
    have hlog : Int.log 2 a ≤ Int.log 2 b := Int.log_mono_right h hab
    rcases lt_or_eq_of_le hlog with hlt | heq
    · calc roundDouble a ≤ (2 : ℚ) ^ (Int.log 2 a + 1) := (roundDouble_pos_bounds h).2
        _ ≤ (2 : ℚ) ^ Int.log 2 b := zpow_le_zpow_right₀ (by norm_num) (by omega)
        _ ≤ roundDouble b := (roundDouble_pos_bounds hb).1
    · rw [roundDouble_of_ne_zero (ne_of_gt h), roundDouble_of_ne_zero (ne_of_gt hb),
        abs_of_pos h, abs_of_pos hb, heq]
      have hu : (0 : ℚ) < 2 ^ (Int.log 2 b - 52) := by positivity
      have hm : a / 2 ^ (Int.log 2 b - 52) ≤ b / 2 ^ (Int.log 2 b - 52) := by gcongr
      have := roundNearestEven_mono hm
      have hq : (roundNearestEven (a / 2 ^ (Int.log 2 b - 52)) : ℚ)
          ≤ (roundNearestEven (b / 2 ^ (Int.log 2 b - 52)) : ℚ) := by exact_mod_cast this
      gcongr

theorem roundDouble_one : roundDouble 1 = 1 := by decide!

theorem roundDouble_hundred : roundDouble 100 = 100 := by decide!

/-! ### Simulator and hands -/

theorem foldl_flatMap_eq {α β σ : Type} (f : σ → β → σ) (g : α → List β) (l : List α) (s : σ) :
    (l.flatMap g).foldl f s = l.foldl (fun s a => (g a).foldl f s) s := by
  induction l generalizing s with
  | nil => rfl
  | cons a l ih => simp [List.flatMap_cons, List.foldl_append, ih]

/-- Unfolding of the simulator at the depth cap and beyond. -/
theorem simulate_capped (v : Int) (rem : List Card) (st : IntMap × Int) (d : Nat) (h : 5 < d) :
    simulateDealerHands v rem st d = record st v := by
  rw [simulateDealerHands]; simp [h]

/-- Unfolding of the simulator when the dealer stands. -/
theorem simulate_stand (v : Int) (rem : List Card) (st : IntMap × Int) (d : Nat) (h : 17 ≤ v) :
    simulateDealerHands v rem st d = record st v := by
  rw [simulateDealerHands]; simp [h]

/-- Unfolding of the simulator when no undealt card is left. -/
theorem simulate_empty (v : Int) (st : IntMap × Int) (d : Nat) :
    simulateDealerHands v [] st d = record st v := by
  rw [simulateDealerHands]; simp

/-- The simulator records exactly the totals of the terminal calls listed by `leaves`. -/
theorem simulate_eq_recordAll (k : Nat) : ∀ (v : Int) (rem : List Card) (st : IntMap × Int)
    (d : Nat), d + k = 6 → simulateDealerHands v rem st d = recordAll st (leaves k v rem) := by
  induction k with
  | zero =>
    intro v rem st d hd
    rw [simulate_capped v rem st d (by omega)]
    simp [leaves, recordAll]
  | succ k ih =>
    intro v rem st d hd
    by_cases hv : 17 ≤ v
    · rw [simulate_stand v rem st d hv]; simp [leaves, recordAll, hv]
    · by_cases hr : rem.isEmpty = true
      · have : rem = [] := List.isEmpty_iff.mp hr
        subst this
        rw [simulate_empty]; simp [leaves, recordAll, hv]
      · rw [simulateDealerHands]
        have hd5 : ¬ d > 5 := by omega
        simp only [hd5, ↓reduceDIte, ge_iff_le, hv, ↓reduceIte, hr, leaves, recordAll,
          Bool.false_eq_true]
        rw [foldl_flatMap_eq]
        congr 1
        funext s cc
        cases hcc : eraseFirstOfValue rem cc.1 with
        | none => simp
        | some r => simpa [recordAll] using ih (drawValue v cc.1) r s (d + 1) (by omega)

/-- The counting loop started from arbitrary counters adds the win weight to `wins`. -/
theorem countOutcomes_foldl_wins (p : Int) (o : IntMap) (acc : Int × Int × Int) :
    (o.foldl (fun acc outcome =>
      if outcome.1 > 21 then (acc.1 + outcome.2, acc.2.1, acc.2.2)
      else if p > outcome.1 then (acc.1 + outcome.2, acc.2.1, acc.2.2)
      else if p < outcome.1 then (acc.1, acc.2.1 + outcome.2, acc.2.2)
      else (acc.1, acc.2.1, acc.2.2 + outcome.2)) acc).1 = acc.1 + winWeight p o := by
  induction o generalizing acc with
  | nil => simp [winWeight]
  | cons e o ih =>
    rw [List.foldl_cons, ih]
    by_cases h1 : e.1 > 21
    · have : winWeight p (e :: o) = e.2 + winWeight p o := by
        simp [winWeight, List.filter_cons, h1]
      simp only [h1, ↓reduceIte, this]; ring
    · by_cases h2 : p > e.1
      · have h2' : e.1 < p := h2
        have : winWeight p (e :: o) = e.2 + winWeight p o := by
          simp [winWeight, List.filter_cons, h2']
        simp only [h1, h2, ↓reduceIte, this]; ring
      · have h2' : ¬ e.1 < p := h2
        have : winWeight p (e :: o) = winWeight p o := by
          simp [winWeight, List.filter_cons, h1, h2']
        by_cases h3 : p < e.1 <;> simp only [h1, h2, h3, ↓reduceIte, this]

theorem countOutcomes_wins (p : Int) (o : IntMap) :
    (countOutcomes p o).1 = winWeight p o := by
  unfold countOutcomes
  rw [countOutcomes_foldl_wins]; simp

/-- C1, the code evaluated at the specification's example `simulate(16, six cards of value 10 and
one of value 11)`: the grouping finds the value 10 six times and the value 11 once, the recursive
call on the value-10 branch returns the bucket 26 once and the one on the value-11 branch the
bucket 17 once, and the call returns 17 and 26 with weight 1 each and grand total 2; the
multiplicities 6 and 1 do not scale the branches, so the weights are in ratio 1:1, not 6:1. -/
theorem simulate_example_unweighted :
    simulateDealerHands 16 sixTensOneAce ([], 0) 0 = ([(17, 1), (26, 1)], 2) ∧
    cardValueCounts sixTensOneAce = [(10, 6), (11, 1)] ∧
    (eraseFirstOfValue sixTensOneAce 10).map
      (fun r => simulateDealerHands (drawValue 16 10) r ([], 0) 1) = some ([(26, 1)], 1) ∧
    (eraseFirstOfValue sixTensOneAce 11).map
      (fun r => simulateDealerHands (drawValue 16 11) r ([], 0) 1) = some ([(17, 1)], 1) := by
  simp only [simulate_eq_recordAll 6 _ _ _ 0 rfl, simulate_eq_recordAll 5 _ _ _ 1 rfl]
  decide

/-- C2, the code evaluated on a position of a real round (player 10 and 7 of spades, dealer 10 and
6 of hearts, the other 48 cards undealt): every enumeration path ends by standing after one draw,
so the depth cap plays no part; the exact probability that the dealer finishes above 21 or below
17 is 7/12 (28 of the 48 cards), i.e. 58.33 percent, while the code returns 50 (5 of the 10
distinct card values). -/
theorem calculateWinProbability_not_exact :
    Hand.getValue [card "Spades" "10" 10, card "Spades" "7" 7] = 17 ∧
    Hand.getValue [card "Hearts" "10" 10, card "Hearts" "6" 6] = 16 ∧
    (∀ t ∈ leaves 6 16 undealt48, 17 ≤ t.1 ∧ t.2.length + 1 = undealt48.length) ∧
    calculateWinProbability [card "Spades" "10" 10, card "Spades" "7" 7]
      [card "Hearts" "10" 10, card "Hearts" "6" 6] undealt48 = some 50 ∧
    100 * exactWinProbability 17 16 undealt48 = 175 / 3 := by
  refine ⟨by decide, by decide, by decide, ?_, by decide!⟩
  simp only [calculateWinProbability]
  rw [simulate_eq_recordAll 6 _ _ _ 0 rfl]
  decide!

/-- C3, as stated, fails: for `p = 20`, the distribution `{21: 9, 22: 11}` and grand total 20
the win weight is 11 and the percentage returned is the double `55 + 2^-47`
(55.000000000000007), not `100 * 11 / 20 = 55`. -/
theorem winPercentage_eleven_twentieths :
    (20 : Int) ≤ 21 ∧ (0 : Int) < 20 ∧ winWeight 20 [(21, 9), (22, 11)] = 11 ∧
    winPercentage 20 [(21, 9), (22, 11)] 20 = 55 + 1 / 2 ^ 47 ∧
    winPercentage 20 [(21, 9), (22, 11)] 20
      ≠ 100 * (winWeight 20 [(21, 9), (22, 11)] : ℚ) / ((20 : Int) : ℚ) := by
  refine ⟨by decide, by decide, by decide, by decide!, by decide!⟩

/-- C3, amended: for every player total `p ≤ 21`, every outcome map and every positive grand total
`T`, the counter `wins` is `W`, the sum of the weights of the dealer finals `d` with `d > 21` or
`d < p` only, and the percentage returned is the double-precision value of `W / T * 100`, rounded
after the division and after the multiplication; it differs from `100 * W / T` by at most the
fraction `2^-51` of it; for `p = 20` and the distribution `{18: 3, 20: 2, 22: 5}` with grand
total 10 the result is exactly 80. -/
theorem winPercentage_eq_rounded (p : Int) (dist : IntMap) (T : Int) (_hp : p ≤ 21)
    (hT : 0 < T) :
    (countOutcomes p dist).1 = winWeight p dist ∧
    winPercentage p dist T = roundDouble (roundDouble ((winWeight p dist : ℚ) / (T : ℚ)) * 100) ∧
    |winPercentage p dist T - 100 * (winWeight p dist : ℚ) / (T : ℚ)|
      ≤ |100 * (winWeight p dist : ℚ) / (T : ℚ)| / 2 ^ 51 ∧
    winPercentage 20 [(18, 3), (20, 2), (22, 5)] 10 = 80 := by
  have hT0 : T ≠ 0 := ne_of_gt hT
  have hw : winPercentage p dist T
      = roundDouble (roundDouble ((winWeight p dist : ℚ) / (T : ℚ)) * 100) := by
    simp only [winPercentage, hT0, ↓reduceIte, countOutcomes_wins]
  refine ⟨countOutcomes_wins p dist, hw, ?_, by decide!⟩
  have hmul : 100 * (winWeight p dist : ℚ) / (T : ℚ)
      = 100 * ((winWeight p dist : ℚ) / (T : ℚ)) := by ring
  rw [hw, hmul]
  generalize (winWeight p dist : ℚ) / (T : ℚ) = x
  have h1 := roundDouble_abs_sub_le x
  have h2 := roundDouble_abs_sub_le (roundDouble x * 100)
  have h3 : |roundDouble x| ≤ |x| + |x| / 2 ^ 53 := by
    calc |roundDouble x| = |(roundDouble x - x) + x| := by ring_nf
      _ ≤ |roundDouble x - x| + |x| := abs_add _ _
      _ ≤ |x| + |x| / 2 ^ 53 := by linarith
  have h4 : |roundDouble x * 100| = 100 * |roundDouble x| := by
    rw [abs_mul]; norm_num; ring
  have h5 : |100 * (roundDouble x - x)| = 100 * |roundDouble x - x| := by
    rw [abs_mul]; norm_num
  have h6 : |roundDouble (roundDouble x * 100) - 100 * x|
      ≤ |roundDouble (roundDouble x * 100) - roundDouble x * 100|
        + 100 * |roundDouble x - x| := by
    calc |roundDouble (roundDouble x * 100) - 100 * x|
        = |(roundDouble (roundDouble x * 100) - roundDouble x * 100)
            + 100 * (roundDouble x - x)| := by ring_nf
      _ ≤ |roundDouble (roundDouble x * 100) - roundDouble x * 100|
            + |100 * (roundDouble x - x)| := abs_add _ _
      _ = _ := by rw [h5]
  have h7 : |100 * x| = 100 * |x| := by rw [abs_mul]; norm_num
  have hx : 0 ≤ |x| := abs_nonneg x
  rw [h4] at h2
  rw [h7]
  linarith

theorem winPercentage_eq_rounded_witness :
    (20 : Int) ≤ 21 ∧ (0 : Int) < 10 ∧
    winPercentage 20 [(18, 3), (20, 2), (22, 5)] 10
      = roundDouble (roundDouble
          ((winWeight 20 [(18, 3), (20, 2), (22, 5)] : ℚ) / ((10 : Int) : ℚ)) * 100) :=
  ⟨by decide, by decide,
    (winPercentage_eq_rounded 20 [(18, 3), (20, 2), (22, 5)] 10 (by decide) (by decide)).2.1⟩

/-- C4, the code evaluated on two dealer hands with the same up card (7 of hearts) and different
hidden cards: for the player hand 10 and 8 of spades and any undealt cards the percentage is 100
when the hidden card is the 10 of hearts and 0 when it is the ace of hearts, because the
simulator is started from the total of both dealer cards (17, resp. 18). -/
theorem calculateWinProbability_uses_hidden_card (remainingCards : List Card) :
    calculateWinProbability [card "Spades" "10" 10, card "Spades" "8" 8]
      [card "Hearts" "10" 10, card "Hearts" "7" 7] remainingCards = some 100 ∧
    calculateWinProbability [card "Spades" "10" 10, card "Spades" "8" 8]
      [card "Hearts" "A" 11, card "Hearts" "7" 7] remainingCards = some 0 := by
  have hb : Hand.isBust [card "Spades" "10" 10, card "Spades" "8" 8] = false := by decide
  have h1 : Hand.getValue [card "Hearts" "10" 10, card "Hearts" "7" 7] = 17 := by decide
  have h2 : Hand.getValue [card "Hearts" "A" 11, card "Hearts" "7" 7] = 18 := by decide
  constructor
  · simp only [calculateWinProbability, hb, Hand.getCard, List.get?, h1]
    rw [simulate_stand _ _ _ _ (by decide)]
    decide!
  · simp only [calculateWinProbability, hb, Hand.getCard, List.get?, h2]
    rw [simulate_stand _ _ _ _ (by decide)]
    decide!

theorem wrapInt_of_range {x : Int} (h₁ : -2147483648 ≤ x) (h₂ : x ≤ 2147483647) :
    wrapInt x = x := by
  unfold wrapInt; omega

theorem wrapInt_add_left (a b : Int) : wrapInt (wrapInt a + b) = wrapInt (a + b) := by
  unfold wrapInt; omega

theorem wrapInt_idem (a : Int) : wrapInt (wrapInt a) = wrapInt a := by
  unfold wrapInt; omega

/-- The first loop of `getValue` started from arbitrary accumulators. -/
theorem sumAndAces_foldl (cards : List Card) (acc : Int × Nat) (hacc : wrapInt acc.1 = acc.1) :
    cards.foldl (fun acc card =>
      (wrapInt (acc.1 + card.value), if card.rank = "A" then acc.2 + 1 else acc.2)) acc
      = (wrapInt (acc.1 + (cards.map fun c => c.value).sum),
         acc.2 + cards.countP fun c => decide (c.rank = "A")) := by
  induction cards generalizing acc with
  | nil => simp [hacc]
  | cons c cards ih =>
    rw [List.foldl_cons, ih _ (wrapInt_idem _)]
    by_cases h : c.rank = "A"
    · simp only [h, ↓reduceIte, List.map_cons, List.sum_cons, List.countP_cons, decide_True]
      exact Prod.ext (by simp only [wrapInt_add_left, add_assoc]) (by simp only []; omega)
    · simp only [h, ↓reduceIte, List.map_cons, List.sum_cons, List.countP_cons, decide_False]
      exact Prod.ext (by simp only [wrapInt_add_left, add_assoc]) (by simp)

theorem sumAndAces_eq (cards : List Card) :
    sumAndAces cards
      = (wrapInt (cards.map fun c => c.value).sum,
          cards.countP fun c => decide (c.rank = "A")) := by
  unfold sumAndAces
  rw [sumAndAces_foldl _ _ (by decide)]; simp

/-- Without overflow the raw sum of `getValue` is the sum of the card values. -/
theorem sumAndAces_of_sumsInRange (cards : List Card) (h : sumsInRange cards) :
    sumAndAces cards
      = ((cards.map fun c => c.value).sum, cards.countP fun c => decide (c.rank = "A")) := by
  have hr := h cards.length (le_refl _)
  rw [List.take_length] at hr
  rw [sumAndAces_eq, wrapInt_of_range hr.1 hr.2]

theorem sum_values_bounds (h : List Card) (hg : ∀ c ∈ h, wellValued c) :
    (h.length : Int) ≤ (h.map fun c => c.value).sum ∧
      (h.map fun c => c.value).sum ≤ 11 * (h.length : Int) := by
  induction h with
  | nil => simp
  | cons c h ih =>
    have ih := ih (fun c' hc' => hg c' (List.mem_cons_of_mem _ hc'))
    have hc := (hg c (List.mem_cons_self _ _)).2
    simp only [List.map_cons, List.sum_cons, List.length_cons, Nat.cast_add, Nat.cast_one]
    omega

/-- A hand of at most 52 well-valued cards is summed without overflow. -/
theorem sumsInRange_of_wellValued (h : List Card) (hg : ∀ c ∈ h, wellValued c)
    (hlen : h.length ≤ 52) : sumsInRange h := by
  intro k _
  have hb := sum_values_bounds (h.take k) (fun c hc => hg c (List.mem_of_mem_take hc))
  have hl : (h.take k).length ≤ 52 := by
    rw [List.length_take]; omega
  omega

theorem deck_new_rank_value : ∀ c ∈ Deck.new.cards,
    (c.rank = "A" ↔ c.value = 11) ∧ wellValued c := by
  unfold wellValued
  decide

/-- The hand total depends on the cards only through their multiset. -/
theorem getValue_perm {h₁ h₂ : List Card} (hp : h₁.Perm h₂) :
    Hand.getValue h₁ = Hand.getValue h₂ := by
  unfold Hand.getValue
  rw [sumAndAces_eq, sumAndAces_eq, (hp.map _).sum_eq, hp.countP_eq]

/-- With aces valued 11, the raw sum is the hard total plus ten per ace. -/
theorem sum_eq_hardTotal (cards : List Card)
    (hA : ∀ c ∈ cards, c.rank = "A" → c.value = 11) :
    (cards.map fun c => c.value).sum
      = hardTotal cards + 10 * (cards.countP fun c => decide (c.rank = "A") : Nat) := by
  induction cards with
  | nil => simp [hardTotal]
  | cons c cards ih =>
    have ih := ih (fun c hc => hA c (List.mem_cons_of_mem _ hc))
    by_cases h : c.rank = "A"
    · have hv := hA c (List.mem_cons_self _ _) h
      simp only [List.map_cons, List.sum_cons, ih, hardTotal, h, ↓reduceIte, hv,
        List.countP_cons, decide_True, Nat.cast_add, Nat.cast_one]
      ring
    · simp [hardTotal, h, ih, List.countP_cons]
      ring

/-- The obtainable totals are the hard total plus ten for each ace valued 11. -/
theorem mem_obtainableTotals (cards : List Card) (t : Int) :
    t ∈ obtainableTotals cards ↔
      ∃ k : Nat, k ≤ (cards.countP fun c => decide (c.rank = "A")) ∧
        t = hardTotal cards + 10 * (k : Int) := by
  induction cards generalizing t with
  | nil => simp [obtainableTotals, hardTotal]
  | cons c cards ih =>
    by_cases h : c.rank = "A"
    · simp only [obtainableTotals, h, ↓reduceIte, List.mem_flatMap, List.mem_cons,
        List.mem_singleton, List.not_mem_nil, or_false, hardTotal, List.countP_cons, decide_True]
      constructor
      · rintro ⟨u, hu, rfl | rfl⟩
        · obtain ⟨k, hk, rfl⟩ := (ih u).mp hu
          exact ⟨k, by omega, by ring⟩
        · obtain ⟨k, hk, rfl⟩ := (ih u).mp hu
          exact ⟨k + 1, by omega, by push_cast; ring⟩
      · rintro ⟨k, hk, rfl⟩
        by_cases hk' : k ≤ cards.countP fun c => decide (c.rank = "A")
        · exact ⟨hardTotal cards + 10 * (k : Int), (ih _).mpr ⟨k, hk', rfl⟩, Or.inl (by ring)⟩
        · obtain ⟨j, rfl⟩ : ∃ j, k = j + 1 := ⟨k - 1, by omega⟩
          exact ⟨hardTotal cards + 10 * (j : Int), (ih _).mpr ⟨j, by omega, rfl⟩,
            Or.inr (by push_cast; ring)⟩
    · simp only [obtainableTotals, h, ↓reduceIte, List.mem_map, hardTotal, List.countP_cons,
        decide_False, Bool.false_eq_true, add_zero]
      constructor
      · rintro ⟨u, hu, rfl⟩
        obtain ⟨k, hk, rfl⟩ := (ih u).mp hu
        exact ⟨k, hk, by ring⟩
      · rintro ⟨k, hk, rfl⟩
        exact ⟨hardTotal cards + 10 * (k : Int), (ih _).mpr ⟨k, hk, rfl⟩, by ring⟩

/-- What the reduction loop returns: it removed `j ≤ aces` tens, stopped at a value of at most 21
or with no ace left, and every earlier value was above 21. -/
theorem reduceAces_spec (aces : Nat) : ∀ value : Int,
    ∃ j : Nat, j ≤ aces ∧ reduceAces value aces = value - 10 * (j : Int) ∧
      (reduceAces value aces ≤ 21 ∨ j = aces) ∧
      ∀ i : Nat, i < j → 21 < value - 10 * (i : Int) := by
  induction aces with
  | zero => intro value; exact ⟨0, le_refl _, by simp [reduceAces], Or.inr rfl, by simp⟩
  | succ n ih =>
    intro value
    by_cases h : value > 21
    · obtain ⟨j, hj, he, hs, hall⟩ := ih (value - 10)
      refine ⟨j + 1, by omega, ?_, ?_, ?_⟩
      · simp only [reduceAces, h, ↓reduceIte, he]; push_cast; ring
      · simp only [reduceAces, h, ↓reduceIte]
        rcases hs with hs | hs
        · exact Or.inl hs
        · exact Or.inr (by omega)
      · intro i hi
        cases i with
        | zero => simpa using h
        | succ i =>
          have := hall i (by omega)
          push_cast; omega
    · refine ⟨0, by omega, by simp [reduceAces, h], Or.inl ?_, by simp⟩
      simp only [reduceAces, h, ↓reduceIte]; omega

/-- C5, as stated, fails: the two-card hand with values 2147483647 and 1 has no card of rank "A"
and none of value 11; its only obtainable total is 2147483648, above 21, but the `int` sum of
`getValue` wraps around to -2147483648, so `getValue` is not the total with every ace valued 1
and `isBust` is false. -/
theorem getValue_overflow :
    (∀ c ∈ [card "Hearts" "X" 2147483647, card "Hearts" "2" 1],
      (c.rank = "A" ↔ c.value = 11)) ∧
    obtainableTotals [card "Hearts" "X" 2147483647, card "Hearts" "2" 1] = [2147483648] ∧
    hardTotal [card "Hearts" "X" 2147483647, card "Hearts" "2" 1] = 2147483648 ∧
    Hand.getValue [card "Hearts" "X" 2147483647, card "Hearts" "2" 1] = -2147483648 ∧
    Hand.getValue [card "Hearts" "X" 2147483647, card "Hearts" "2" 1]
      ≠ hardTotal [card "Hearts" "X" 2147483647, card "Hearts" "2" 1] ∧
    Hand.isBust [card "Hearts" "X" 2147483647, card "Hearts" "2" 1] = false := by
  decide

/-- C5, amended: for every hand whose cards satisfy "rank is A iff value is 11" and whose running
sums of card values stay within the range of `int` (no signed overflow in the summation; in
particular every hand drawn from the deck), when some valuation of the aces as 1 or 11 gives a
total of at most 21, `getValue` is the largest such total; when none does, `getValue` is the
total with every ace valued 1; `isBust` holds exactly when the total with every ace valued 1
exceeds 21; the total of the empty hand is 0; and every hand of at most 52 cards of the deck
meets both conditions. -/
theorem getValue_best_total (h : Hand) (hA : ∀ c ∈ h, (c.rank = "A" ↔ c.value = 11))
    (hrange : sumsInRange h) :
    ((∃ t ∈ obtainableTotals h, t ≤ 21) →
      Hand.getValue h ∈ obtainableTotals h ∧ Hand.getValue h ≤ 21 ∧
        ∀ t ∈ obtainableTotals h, t ≤ 21 → t ≤ Hand.getValue h) ∧
    ((∀ t ∈ obtainableTotals h, 21 < t) → Hand.getValue h = hardTotal h) ∧
    (Hand.isBust h = true ↔ 21 < hardTotal h) ∧
    Hand.getValue [] = 0 ∧
    (∀ hand : Hand, hand.length ≤ 52 → (∀ c ∈ hand, c ∈ Deck.new.cards) →
      (∀ c ∈ hand, (c.rank = "A" ↔ c.value = 11)) ∧ sumsInRange hand) := by
  have hdeck : ∀ hand : Hand, hand.length ≤ 52 → (∀ c ∈ hand, c ∈ Deck.new.cards) →
      (∀ c ∈ hand, (c.rank = "A" ↔ c.value = 11)) ∧ sumsInRange hand := fun hand hlen hmem =>
    ⟨fun c hc => (deck_new_rank_value c (hmem c hc)).1,
      sumsInRange_of_wellValued hand (fun c hc => (deck_new_rank_value c (hmem c hc)).2) hlen⟩
  have hsum := sum_eq_hardTotal h (fun c hc hr => (hA c hc).mp hr)
  obtain ⟨j, hj, he, hs, hall⟩ := reduceAces_spec (sumAndAces h).2 (sumAndAces h).1
  have hg : Hand.getValue h = reduceAces (sumAndAces h).1 (sumAndAces h).2 := rfl
  rw [← hg] at he hs
  rw [sumAndAces_of_sumsInRange h hrange] at he hs hall hj
  simp only [hsum] at he hs hall hj
  simp only [mem_obtainableTotals, Hand.isBust, decide_eq_true_eq]
  generalize (h.countP fun c => decide (c.rank = "A")) = a at he hs hall hj ⊢
  generalize hardTotal h = H at he hs hall ⊢
  generalize Hand.getValue h = r at he hs ⊢
  have hmem : ∃ k : Nat, k ≤ a ∧ r = H + 10 * (k : Int) := ⟨a - j, by omega, by omega⟩
  refine ⟨?_, ?_, ?_, by decide, hdeck⟩
  · rintro ⟨t, ⟨k, hk, rfl⟩, ht⟩
    have hr : r ≤ 21 := by
      rcases hs with hs | hs
      · exact hs
      · omega
    refine ⟨hmem, hr, ?_⟩
    rintro t ⟨k', hk', rfl⟩ ht'
    by_contra hlt
    have := hall (a - k') (by omega)
    omega
  · intro hbig
    obtain ⟨k, hk, hrk⟩ := hmem
    have := hbig r ⟨k, hk, hrk⟩
    rcases hs with hs | hs
    · omega
    · omega
  · constructor
    · intro hr
      rcases hs with hs | hs
      · omega
      · omega
    · intro hH
      omega

theorem getValue_best_total_witness :
    (∀ c ∈ [card "Hearts" "A" 11, card "Spades" "A" 11, card "Hearts" "9" 9],
      (c.rank = "A" ↔ c.value = 11)) ∧
    sumsInRange [card "Hearts" "A" 11, card "Spades" "A" 11, card "Hearts" "9" 9] ∧
    (∃ t ∈ obtainableTotals [card "Hearts" "A" 11, card "Spades" "A" 11, card "Hearts" "9" 9],
      t ≤ 21) ∧
    (Hand.getValue [card "Hearts" "A" 11, card "Spades" "A" 11, card "Hearts" "9" 9]
        ∈ obtainableTotals [card "Hearts" "A" 11, card "Spades" "A" 11, card "Hearts" "9" 9] ∧
      Hand.getValue [card "Hearts" "A" 11, card "Spades" "A" 11, card "Hearts" "9" 9] ≤ 21 ∧
      ∀ t ∈ obtainableTotals [card "Hearts" "A" 11, card "Spades" "A" 11, card "Hearts" "9" 9],
        t ≤ 21 → t ≤ Hand.getValue [card "Hearts" "A" 11, card "Spades" "A" 11,
          card "Hearts" "9" 9]) :=
  ⟨by decide, by unfold sumsInRange; decide, by decide,
    (getValue_best_total [card "Hearts" "A" 11, card "Spades" "A" 11, card "Hearts" "9" 9]
      (by decide) (by unfold sumsInRange; decide)).1 (by decide)⟩

/-- C6, the code evaluated on the two-card hand ace of hearts, ace of spades, both cards of a
fresh deck: the hand contains an ace, its total is 12, which is at most 21 and is the
all-aces-as-1 sum 2 plus 10 (one ace still valued 11), and `isSoft` returns false because it
tests the raw sum 22 against 21. -/
theorem isSoft_two_aces :
    (∀ c ∈ [card "Hearts" "A" 11, card "Spades" "A" 11], c ∈ Deck.new.cards) ∧
    (∃ c ∈ [card "Hearts" "A" 11, card "Spades" "A" 11], c.rank = "A") ∧
    Hand.getValue [card "Hearts" "A" 11, card "Spades" "A" 11] = 12 ∧
    hardTotal [card "Hearts" "A" 11, card "Spades" "A" 11] + 10 = 12 ∧
    (sumAndHasAce [card "Hearts" "A" 11, card "Spades" "A" 11]).1 = 22 ∧
    Hand.isSoft [card "Hearts" "A" 11, card "Spades" "A" 11] = false := by
  decide

/-- C7, as stated, fails: the hand ace of hearts, ace of spades, nine of hearts has total 21 under
`getValue`, not 11. -/
theorem getValue_ace_ace_nine_ne_eleven :
    Hand.getValue [card "Hearts" "A" 11, card "Spades" "A" 11, card "Hearts" "9" 9] = 21 ∧
    Hand.getValue [card "Hearts" "A" 11, card "Spades" "A" 11, card "Hearts" "9" 9] ≠ 11 := by
  decide

/-- C7, amended: a hand consisting of two aces and a nine, of any suits and in any order, has
total 21 under `getValue` (one ace counted as 11, the other as 1). -/
theorem getValue_ace_ace_nine (s₁ s₂ s₃ : String) (h : Hand)
    (hp : h.Perm [card s₁ "A" 11, card s₂ "A" 11, card s₃ "9" 9]) :
    Hand.getValue h = 21 := by
  rw [getValue_perm hp]
  have hw : wrapInt 31 = 31 := by decide
  simp [Hand.getValue, sumAndAces_eq, card, reduceAces, hw]

theorem getValue_ace_ace_nine_witness :
    [card "Clubs" "9" 9, card "Hearts" "A" 11, card "Spades" "A" 11].Perm
      [card "Hearts" "A" 11, card "Spades" "A" 11, card "Clubs" "9" 9] ∧
    Hand.getValue [card "Clubs" "9" 9, card "Hearts" "A" 11, card "Spades" "A" 11] = 21 :=
  ⟨by decide, getValue_ace_ace_nine "Hearts" "Spades" "Clubs" _ (by decide)⟩

theorem eraseFirstOfValue_length {rem r : List Card} {v : Int}
    (h : eraseFirstOfValue rem v = some r) : r.length + 1 = rem.length := by
  induction rem generalizing r with
  | nil => simp [eraseFirstOfValue] at h
  | cons c rem ih =>
    by_cases hc : c.value = v
    · simp [eraseFirstOfValue, hc] at h
      subst h; simp
    · simp only [eraseFirstOfValue, hc, ↓reduceIte, Option.map_eq_some'] at h
      obtain ⟨r', hr', rfl⟩ := h
      simp [ih hr']

/-- Every terminal call holds all but at most `levels` of the undealt cards: a path draws at most
`levels` cards. -/
theorem leaves_draws (k : Nat) : ∀ (v : Int) (rem : List Card), ∀ t ∈ leaves k v rem,
    t.2.length ≤ rem.length ∧ rem.length ≤ t.2.length + k := by
  induction k with
  | zero => intro v rem t ht; simp [leaves] at ht; subst ht; simp
  | succ k ih =>
    intro v rem t ht
    by_cases hv : 17 ≤ v
    · simp [leaves, hv] at ht; subst ht; simp
    · by_cases hr : rem.isEmpty = true
      · simp [leaves, hv, hr] at ht; subst ht; simp
      · simp only [leaves, ge_iff_le, hv, ↓reduceIte, hr, Bool.false_eq_true,
          List.mem_flatMap] at ht
        obtain ⟨cc, _, hcc⟩ := ht
        cases he : eraseFirstOfValue rem cc.1 with
        | none => simp [he] at hcc
        | some r =>
          simp only [he] at hcc
          have := ih _ _ t hcc
          have := eraseFirstOfValue_length he
          omega

theorem cardValueCounts_foldl_replicate (c : Card) (n : Nat) (j : Int) :
    (List.replicate n c).foldl (fun m card => incr m card.value) [(c.value, j)]
      = [(c.value, j + n)] := by
  induction n generalizing j with
  | zero => simp
  | succ n ih =>
    simp only [List.replicate_succ, List.foldl_cons, incr, lt_self_iff_false, ↓reduceIte, ih]
    push_cast; simp only [List.cons.injEq, Prod.mk.injEq, true_and, and_true]; ring

theorem cardValueCounts_replicate (c : Card) (n : Nat) :
    cardValueCounts (List.replicate (n + 1) c) = [(c.value, (n : Int) + 1)] := by
  simp only [cardValueCounts, List.replicate_succ, List.foldl_cons, incr]
  rw [cardValueCounts_foldl_replicate]; simp [add_comm]

/-- With only twos undealt and the total staying below 17, the enumeration is a single path that
draws a two at every level. -/
theorem leaves_replicate_two (k : Nat) : ∀ (n : Nat) (v : Int), v + 2 * (k : Int) ≤ 18 →
    leaves k v (List.replicate (n + k) (card "Hearts" "2" 2))
      = [(v + 2 * (k : Int), List.replicate n (card "Hearts" "2" 2))] := by
  induction k with
  | zero => intro n v _; simp [leaves]
  | succ k ih =>
    intro n v hv
    have hv17 : ¬ 17 ≤ v := by push_cast at hv; omega
    have hlen : n + (k + 1) = (n + k) + 1 := by omega
    rw [hlen]
    simp only [leaves, ge_iff_le, hv17, ↓reduceIte, cardValueCounts_replicate]
    have hne : (List.replicate (n + k + 1) (card "Hearts" "2" 2)).isEmpty = false := by
      simp [List.replicate_succ]
    have he : eraseFirstOfValue (List.replicate (n + k + 1) (card "Hearts" "2" 2))
        (card "Hearts" "2" 2).value = some (List.replicate (n + k) (card "Hearts" "2" 2)) := by
      simp [List.replicate_succ, eraseFirstOfValue]
    have hd : drawValue v (card "Hearts" "2" 2).value = v + 2 := by
      simp [drawValue, card]
    simp only [hne, Bool.false_eq_true, ↓reduceIte, List.flatMap_cons, List.flatMap_nil,
      List.append_nil, he, hd]
    rw [ih n (v + 2) (by push_cast at hv; omega)]
    push_cast
    simp only [List.cons.injEq, Prod.mk.injEq, and_true]
    ring

/-- C8, as stated, fails: for `dealerTotal = 4` and six undealt cards of value 2 the single path
draws all six cards (no card is left at its terminal call) and the distribution is the single
bucket 16, not 14. -/
theorem simulate_six_twos_bucket_sixteen :
    simulateDealerHands 4 sixTwos ([], 0) 0 = ([(16, 1)], 1) ∧
    leaves 6 4 sixTwos = [(16, [])] ∧
    ∀ w : Int, (simulateDealerHands 4 sixTwos ([], 0) 0).1 ≠ [(14, w)] := by
  have h : simulateDealerHands 4 sixTwos ([], 0) 0 = ([(16, 1)], 1) := by
    rw [simulate_eq_recordAll 6 _ _ _ 0 rfl]; decide
  refine ⟨h, by decide, ?_⟩
  intro w hw
  rw [h] at hw
  simp at hw

/-- C8, amended (cap of 6 draws): a top-level call records exactly the terminal calls of the
enumeration with six levels, each of which still holds all but at most 6 of the undealt cards, so
no path draws more than 6 cards; a call at depth 6, i.e. after the sixth draw, records its current
total whatever it is and draws no seventh card; and for `dealerTotal = 4` and six or more undealt
cards of value 2 the distribution is the single bucket 16 with weight 1. -/
theorem depth_cap_six_draws (v : Int) (rem : List Card) (st : IntMap × Int) (n : Nat) :
    simulateDealerHands v rem st 0 = recordAll st (leaves 6 v rem) ∧
    (∀ t ∈ leaves 6 v rem, t.2.length ≤ rem.length ∧ rem.length ≤ t.2.length + 6) ∧
    simulateDealerHands v rem st 6 = record st v ∧
    simulateDealerHands 4 (List.replicate (n + 6) (card "Hearts" "2" 2)) ([], 0) 0
      = ([(16, 1)], 1) := by
  refine ⟨simulate_eq_recordAll 6 v rem st 0 rfl, leaves_draws 6 v rem,
    simulate_capped v rem st 6 (by decide), ?_⟩
  rw [simulate_eq_recordAll 6 _ _ _ 0 rfl, leaves_replicate_two 6 n 4 (by decide)]
  simp [recordAll, record, incr]

/-- C9: for every dealer total of 17 or more with any undealt cards, and for every dealer total
with no undealt card, a top-level simulator call started from the empty distribution returns the
single bucket `dealerTotal` with weight 1 and grand total 1, its only terminal call being the
top-level call itself. -/
theorem simulate_short_circuit (v : Int) (rem : List Card) (h : 17 ≤ v ∨ rem = []) :
    simulateDealerHands v rem ([], 0) 0 = ([(v, 1)], 1) ∧ leaves 6 v rem = [(v, rem)] := by
  rcases h with h | h
  · rw [simulate_stand v rem _ 0 h]
    simp [record, incr, leaves, h]
  · subst h
    rw [simulate_empty]
    simp [record, incr, leaves]

theorem simulate_short_circuit_witness :
    ((17 : Int) ≤ 17 ∨ sixTensOneAce = []) ∧
    simulateDealerHands 17 sixTensOneAce ([], 0) 0 = ([(17, 1)], 1) ∧
    leaves 6 17 sixTensOneAce = [(17, sixTensOneAce)] :=
  ⟨Or.inl (by decide), simulate_short_circuit 17 sixTensOneAce (Or.inl (by decide))⟩

/-- C10: for every player hand with `getValue > 21`, every dealer hand (even one with fewer than
two cards) and every list of undealt cards, `calculateWinProbability` returns exactly 0. -/
theorem calculateWinProbability_bust (playerHand dealerHand : Hand) (remainingCards : List Card)
    (h : Hand.getValue playerHand > 21) :
    calculateWinProbability playerHand dealerHand remainingCards = some 0 := by
  simp [calculateWinProbability, Hand.isBust, h]

theorem calculateWinProbability_bust_witness :
    Hand.getValue [card "Hearts" "K" 10, card "Hearts" "Q" 10, card "Hearts" "5" 5] > 21 ∧
    calculateWinProbability [card "Hearts" "K" 10, card "Hearts" "Q" 10, card "Hearts" "5" 5]
      [] sixTensOneAce = some 0 :=
  ⟨by decide, calculateWinProbability_bust _ [] sixTensOneAce (by decide)⟩

theorem incr_ne_nil (m : IntMap) (k : Int) : incr m k ≠ [] := by
  cases m with
  | nil => simp [incr]
  | cons e m =>
    obtain ⟨k', c⟩ := e
    simp only [incr]
    split_ifs <;> simp

theorem incr_sum (m : IntMap) (k : Int) :
    ((incr m k).map fun e => e.2).sum = (m.map fun e => e.2).sum + 1 := by
  induction m with
  | nil => simp [incr]
  | cons e m ih =>
    obtain ⟨k', c⟩ := e
    simp only [incr]
    split_ifs
    · simp; ring
    · simp; ring
    · simp [ih]; ring

theorem incr_pos (m : IntMap) (k : Int) (h : ∀ e ∈ m, 0 < e.2) : ∀ e ∈ incr m k, 0 < e.2 := by
  induction m with
  | nil => intro e he; simp [incr] at he; subst he; exact Int.one_pos
  | cons e' m ih =>
    obtain ⟨k', c⟩ := e'
    have hc : 0 < c := h (k', c) (List.mem_cons_self _ _)
    have hm : ∀ e ∈ m, 0 < e.2 := fun e he => h e (List.mem_cons_of_mem _ he)
    intro e he
    simp only [incr] at he
    split_ifs at he
    · rcases List.mem_cons.mp he with rfl | he
      · exact Int.one_pos
      · exact h e he
    · rcases List.mem_cons.mp he with rfl | he
      · show 0 < c + 1
        omega
      · exact hm e he
    · rcases List.mem_cons.mp he with rfl | he
      · exact hc
      · exact ih hm e he

theorem incr_key (m : IntMap) (k : Int) : ∀ e ∈ incr m k, e.1 = k ∨ ∃ e' ∈ m, e'.1 = e.1 := by
  induction m with
  | nil => intro e he; simp [incr] at he; subst he; exact Or.inl rfl
  | cons e' m ih =>
    obtain ⟨k', c⟩ := e'
    intro e he
    simp only [incr] at he
    split_ifs at he with h1 h2
    · rcases List.mem_cons.mp he with rfl | he
      · exact Or.inl rfl
      · exact Or.inr ⟨e, he, rfl⟩
    · rcases List.mem_cons.mp he with rfl | he
      · exact Or.inl h2.symm
      · exact Or.inr ⟨e, List.mem_cons_of_mem _ he, rfl⟩
    · rcases List.mem_cons.mp he with rfl | he
      · exact Or.inr ⟨(k', c), List.mem_cons_self _ _, rfl⟩
      · rcases ih e he with h | ⟨e'', he'', h⟩
        · exact Or.inl h
        · exact Or.inr ⟨e'', List.mem_cons_of_mem _ he'', h⟩

/-- The state invariant of the simulator: every stored count is positive and the grand total is
the sum of the counts. -/
theorem recordAll_invariant (ts : List (Int × List Card)) : ∀ st : IntMap × Int,
    (∀ e ∈ st.1, 0 < e.2) → (st.1.map fun e => e.2).sum = st.2 →
    (∀ e ∈ (recordAll st ts).1, 0 < e.2) ∧
      ((recordAll st ts).1.map fun e => e.2).sum = (recordAll st ts).2 ∧
      (recordAll st ts).2 = st.2 + ts.length ∧
      (ts ≠ [] → (recordAll st ts).1 ≠ []) := by
  induction ts with
  | nil => intro st h1 h2; exact ⟨h1, h2, by simp [recordAll], by simp⟩
  | cons t ts ih =>
    intro st h1 h2
    have h := ih (record st t.1) (incr_pos _ _ h1) (by simp [record, incr_sum, h2])
    have hrec : recordAll st (t :: ts) = recordAll (record st t.1) ts := rfl
    rw [hrec]
    refine ⟨h.1, h.2.1, ?_, ?_⟩
    · rw [h.2.2.1]; simp [record]; ring
    · intro _
      cases ts with
      | nil => simpa [recordAll, record] using incr_ne_nil st.1 t.1
      | cons t' ts => exact h.2.2.2 (by simp)

theorem cardValueCounts_foldl_key (l : List Card) : ∀ m : IntMap,
    ∀ e ∈ l.foldl (fun m card => incr m card.value) m,
      (∃ c ∈ l, c.value = e.1) ∨ ∃ e' ∈ m, e'.1 = e.1 := by
  induction l with
  | nil => intro m e he; exact Or.inr ⟨e, he, rfl⟩
  | cons c l ih =>
    intro m e he
    rcases ih (incr m c.value) e he with ⟨c', hc', h⟩ | ⟨e', he', h⟩
    · exact Or.inl ⟨c', List.mem_cons_of_mem _ hc', h⟩
    · rcases incr_key m c.value e' he' with h' | ⟨e'', he'', h'⟩
      · exact Or.inl ⟨c, List.mem_cons_self _ _, by rw [← h, h']⟩
      · exact Or.inr ⟨e'', he'', by rw [h', h]⟩

theorem cardValueCounts_key (rem : List Card) :
    ∀ e ∈ cardValueCounts rem, ∃ c ∈ rem, c.value = e.1 := by
  intro e he
  rcases cardValueCounts_foldl_key rem [] e he with h | ⟨e', he', _⟩
  · exact h
  · simp at he'

theorem cardValueCounts_foldl_ne_nil (l : List Card) : ∀ m : IntMap, m ≠ [] →
    l.foldl (fun m card => incr m card.value) m ≠ [] := by
  induction l with
  | nil => intro m hm; exact hm
  | cons c l ih => intro m _; exact ih _ (incr_ne_nil m c.value)

theorem cardValueCounts_ne_nil (rem : List Card) (h : rem ≠ []) : cardValueCounts rem ≠ [] := by
  cases rem with
  | nil => exact absurd rfl h
  | cons c l => exact cardValueCounts_foldl_ne_nil l _ (incr_ne_nil [] c.value)

theorem eraseFirstOfValue_isSome (rem : List Card) (v : Int) (h : ∃ c ∈ rem, c.value = v) :
    ∃ r, eraseFirstOfValue rem v = some r := by
  induction rem with
  | nil => simp at h
  | cons c rem ih =>
    by_cases hc : c.value = v
    · exact ⟨rem, by simp [eraseFirstOfValue, hc]⟩
    · obtain ⟨c', hc', hv⟩ := h
      rcases List.mem_cons.mp hc' with rfl | hc'
      · exact absurd hv hc
      · obtain ⟨r, hr⟩ := ih ⟨c', hc', hv⟩
        exact ⟨c :: r, by simp [eraseFirstOfValue, hc, hr]⟩

/-- The enumeration always reaches at least one terminal call. -/
theorem leaves_ne_nil (k : Nat) : ∀ (v : Int) (rem : List Card), leaves k v rem ≠ [] := by
  induction k with
  | zero => intro v rem; simp [leaves]
  | succ k ih =>
    intro v rem
    by_cases hv : 17 ≤ v
    · simp [leaves, hv]
    · by_cases hr : rem.isEmpty = true
      · simp [leaves, hv, hr]
      · have hne : rem ≠ [] := fun h => hr (by simp [h])
        simp only [leaves, ge_iff_le, hv, ↓reduceIte, hr, Bool.false_eq_true]
        obtain ⟨cc, ccs, hcc⟩ := List.exists_cons_of_ne_nil (cardValueCounts_ne_nil rem hne)
        obtain ⟨r, hr'⟩ := eraseFirstOfValue_isSome rem cc.1
          (cardValueCounts_key rem cc (by rw [hcc]; exact List.mem_cons_self _ _))
        rw [hcc, List.flatMap_cons]
        simp only [hr']
        intro h
        exact ih _ _ (List.append_eq_nil.mp h).1

/-- The state returned by a top-level call from the empty distribution. -/
theorem simulate_top_invariant (v : Int) (rem : List Card) :
    (∀ e ∈ (simulateDealerHands v rem ([], 0) 0).1, 0 < e.2) ∧
    ((simulateDealerHands v rem ([], 0) 0).1.map fun e => e.2).sum
      = (simulateDealerHands v rem ([], 0) 0).2 ∧
    (simulateDealerHands v rem ([], 0) 0).2 = ((leaves 6 v rem).length : Int) ∧
    (simulateDealerHands v rem ([], 0) 0).1 ≠ [] ∧
    1 ≤ (simulateDealerHands v rem ([], 0) 0).2 := by
  rw [simulate_eq_recordAll 6 v rem _ 0 rfl]
  have h := recordAll_invariant (leaves 6 v rem) ([], 0) (by simp) (by simp)
  have hne := leaves_ne_nil 6 v rem
  refine ⟨h.1, h.2.1, by simpa using h.2.2.1, h.2.2.2 hne, ?_⟩
  rw [h.2.2.1]
  have : 0 < (leaves 6 v rem).length := List.length_pos.mpr hne
  simp only [zero_add]
  omega

theorem winWeight_bounds (p : Int) (dist : IntMap) (h : ∀ e ∈ dist, 0 ≤ e.2) :
    0 ≤ winWeight p dist ∧ winWeight p dist ≤ (dist.map fun e => e.2).sum := by
  induction dist with
  | nil => simp [winWeight]
  | cons e dist ih =>
    have he : 0 ≤ e.2 := h e (List.mem_cons_self _ _)
    have ih := ih (fun e' he' => h e' (List.mem_cons_of_mem _ he'))
    unfold winWeight at ih ⊢
    by_cases hw : e.1 > 21 ∨ e.1 < p
    · simp only [List.filter_cons, hw, decide_True, ↓reduceIte, List.map_cons, List.sum_cons]
      omega
    · simp only [List.filter_cons, hw, decide_False, Bool.false_eq_true, ↓reduceIte,
        List.map_cons, List.sum_cons]
      omega

theorem winWeight_mono (p₁ p₂ : Int) (hp : p₁ ≤ p₂) (dist : IntMap) (h : ∀ e ∈ dist, 0 ≤ e.2) :
    winWeight p₁ dist ≤ winWeight p₂ dist := by
  induction dist with
  | nil => simp [winWeight]
  | cons e dist ih =>
    have he : 0 ≤ e.2 := h e (List.mem_cons_self _ _)
    have ih := ih (fun e' he' => h e' (List.mem_cons_of_mem _ he'))
    unfold winWeight at ih ⊢
    by_cases hw₁ : e.1 > 21 ∨ e.1 < p₁
    · have hw₂ : e.1 > 21 ∨ e.1 < p₂ := by omega
      simp only [List.filter_cons, hw₁, hw₂, decide_True, ↓reduceIte, List.map_cons,
        List.sum_cons]
      omega
    · by_cases hw₂ : e.1 > 21 ∨ e.1 < p₂
      · simp only [List.filter_cons, hw₁, hw₂, decide_True, decide_False, Bool.false_eq_true,
          ↓reduceIte, List.map_cons, List.sum_cons]
        omega
      · simp only [List.filter_cons, hw₁, hw₂, decide_False, Bool.false_eq_true, ↓reduceIte]
        exact ih

/-- The value of `calculateWinProbability` on a non-busted player hand and a dealer hand of at
least two cards. -/
theorem calculateWinProbability_eq (playerHand dealerHand : Hand) (rem : List Card)
    (hb : ¬ Hand.getValue playerHand > 21) (hd : 2 ≤ dealerHand.length) :
    calculateWinProbability playerHand dealerHand rem
      = some (winPercentage (Hand.getValue playerHand)
          (simulateDealerHands (Hand.getValue dealerHand) rem ([], 0) 0).1
          (simulateDealerHands (Hand.getValue dealerHand) rem ([], 0) 0).2) := by
  obtain ⟨c, hc⟩ : ∃ c, dealerHand.get? 1 = some c :=
    ⟨dealerHand.get ⟨1, by omega⟩, List.get?_eq_get _⟩
  have hbust : Hand.isBust playerHand = false := by simp [Hand.isBust, hb]
  simp only [calculateWinProbability, hbust, Bool.false_eq_true, ↓reduceIte, Hand.getCard, hc]

/-- The percentage computed from the state of a top-level simulator call. -/
theorem winPercentage_simulate (p v : Int) (rem : List Card) :
    winPercentage p (simulateDealerHands v rem ([], 0) 0).1
        (simulateDealerHands v rem ([], 0) 0).2
      = roundDouble (roundDouble ((winWeight p (simulateDealerHands v rem ([], 0) 0).1 : ℚ)
          / ((simulateDealerHands v rem ([], 0) 0).2 : ℚ)) * 100) := by
  have h := (simulate_top_invariant v rem).2.2.2.2
  have h0 : (simulateDealerHands v rem ([], 0) 0).2 ≠ 0 := by omega
  simp only [winPercentage, h0, ↓reduceIte, countOutcomes_wins]

/-- C11: for every player hand, every dealer hand of at least two cards and every list of undealt
cards, `calculateWinProbability` returns a percentage between 0 and 100. -/
theorem calculateWinProbability_range (playerHand dealerHand : Hand) (remainingCards : List Card)
    (hd : 2 ≤ dealerHand.length) :
    ∃ q : ℚ, calculateWinProbability playerHand dealerHand remainingCards = some q ∧
      0 ≤ q ∧ q ≤ 100 := by
  by_cases hb : Hand.getValue playerHand > 21
  · exact ⟨0, by simp [calculateWinProbability, Hand.isBust, hb], le_refl _, by norm_num⟩
  · refine ⟨_, calculateWinProbability_eq playerHand dealerHand remainingCards hb hd, ?_⟩
    rw [winPercentage_simulate]
    obtain ⟨hpos, hsum, _, _, hT⟩ := simulate_top_invariant (Hand.getValue dealerHand)
      remainingCards
    have hW := winWeight_bounds (Hand.getValue playerHand) _ (fun e he => le_of_lt (hpos e he))
    rw [hsum] at hW
    generalize winWeight (Hand.getValue playerHand)
      (simulateDealerHands (Hand.getValue dealerHand) remainingCards ([], 0) 0).1 = W at hW
    generalize (simulateDealerHands (Hand.getValue dealerHand) remainingCards ([], 0) 0).2 = T
      at hW hT
    have hTq : (0 : ℚ) < (T : ℚ) := by exact_mod_cast (by omega : 0 < T)
    have hW0 : (0 : ℚ) ≤ (W : ℚ) := by exact_mod_cast hW.1
    have hWT : (W : ℚ) ≤ (T : ℚ) := by exact_mod_cast hW.2
    have hq0 : (0 : ℚ) ≤ (W : ℚ) / (T : ℚ) := by positivity
    have hq1 : (W : ℚ) / (T : ℚ) ≤ 1 := by rw [div_le_one hTq]; exact hWT
    have hr0 : 0 ≤ roundDouble ((W : ℚ) / (T : ℚ)) := roundDouble_nonneg hq0
    have hr1 : roundDouble ((W : ℚ) / (T : ℚ)) ≤ 1 := by
      have := roundDouble_mono hq0 hq1
      rwa [roundDouble_one] at this
    constructor
    · exact roundDouble_nonneg (by positivity)
    · have := roundDouble_mono (a := roundDouble ((W : ℚ) / (T : ℚ)) * 100) (b := 100)
        (by positivity) (by linarith)
      rwa [roundDouble_hundred] at this

theorem calculateWinProbability_range_witness :
    2 ≤ [card "Hearts" "10" 10, card "Hearts" "6" 6].length ∧
    ∃ q : ℚ, calculateWinProbability [card "Spades" "10" 10, card "Spades" "7" 7]
      [card "Hearts" "10" 10, card "Hearts" "6" 6] undealt48 = some q ∧ 0 ≤ q ∧ q ≤ 100 :=
  ⟨by decide, calculateWinProbability_range _ _ undealt48 (by decide)⟩

/-- C17: for every dealer total and every list of undealt cards, the empty list included, a
top-level simulator call from the empty distribution leaves a grand total of at least 1 and a
non-empty distribution, so `calculateWinProbability` never takes its `totalSimulations == 0`
branch and divides by a non-zero total. -/
theorem simulate_total_positive (v : Int) (rem : List Card) (p : Int) :
    1 ≤ (simulateDealerHands v rem ([], 0) 0).2 ∧
    (simulateDealerHands v rem ([], 0) 0).1 ≠ [] ∧
    (simulateDealerHands v rem ([], 0) 0).2 ≠ 0 ∧
    winPercentage p (simulateDealerHands v rem ([], 0) 0).1
        (simulateDealerHands v rem ([], 0) 0).2
      = roundDouble (roundDouble
          (((countOutcomes p (simulateDealerHands v rem ([], 0) 0).1).1 : ℚ)
            / ((simulateDealerHands v rem ([], 0) 0).2 : ℚ)) * 100) := by
  obtain ⟨_, _, _, hne, hT⟩ := simulate_top_invariant v rem
  have h0 : (simulateDealerHands v rem ([], 0) 0).2 ≠ 0 := by omega
  exact ⟨hT, hne, h0, by simp only [winPercentage, h0, ↓reduceIte]⟩

/-- C19: for every dealer total and every list of undealt cards, after a top-level simulator call
started with an empty distribution and total 0 the grand total equals the sum of all occurrence
counts of the distribution, and both equal the number of terminal calls of the enumeration. -/
theorem simulate_total_eq_sum (v : Int) (rem : List Card) :
    ((simulateDealerHands v rem ([], 0) 0).1.map fun e => e.2).sum
      = (simulateDealerHands v rem ([], 0) 0).2 ∧
    (simulateDealerHands v rem ([], 0) 0).2 = ((leaves 6 v rem).length : Int) := by
  obtain ⟨_, hsum, hlen, _, _⟩ := simulate_top_invariant v rem
  exact ⟨hsum, hlen⟩

/-- C20: for a fixed dealer hand of at least two cards and fixed undealt cards, and two player
hands with totals `p1 ≤ p2 ≤ 21`, the percentage computed for the first hand is at most the one
computed for the second. -/
theorem calculateWinProbability_mono (hand₁ hand₂ dealerHand : Hand) (remainingCards : List Card)
    (hd : 2 ≤ dealerHand.length) (h12 : Hand.getValue hand₁ ≤ Hand.getValue hand₂)
    (h21 : Hand.getValue hand₂ ≤ 21) :
    ∃ q₁ q₂ : ℚ, calculateWinProbability hand₁ dealerHand remainingCards = some q₁ ∧
      calculateWinProbability hand₂ dealerHand remainingCards = some q₂ ∧ q₁ ≤ q₂ := by
  refine ⟨_, _, calculateWinProbability_eq hand₁ dealerHand remainingCards (by omega) hd,
    calculateWinProbability_eq hand₂ dealerHand remainingCards (by omega) hd, ?_⟩
  rw [winPercentage_simulate, winPercentage_simulate]
  obtain ⟨hpos, _, _, _, hT⟩ := simulate_top_invariant (Hand.getValue dealerHand) remainingCards
  have hW := winWeight_mono _ _ h12 _ (fun e he => le_of_lt (hpos e he))
  have hT0 : 0 < (simulateDealerHands (Hand.getValue dealerHand) remainingCards ([], 0) 0).2 := by
    omega
  have hTq : (0 : ℚ) < ((simulateDealerHands (Hand.getValue dealerHand) remainingCards
      ([], 0) 0).2 : ℚ) := by exact_mod_cast hT0
  have hWq : (winWeight (Hand.getValue hand₁) (simulateDealerHands (Hand.getValue dealerHand)
      remainingCards ([], 0) 0).1 : ℚ) ≤ (winWeight (Hand.getValue hand₂)
      (simulateDealerHands (Hand.getValue dealerHand) remainingCards ([], 0) 0).1 : ℚ) := by
    exact_mod_cast hW
  have hW0 := (winWeight_bounds (Hand.getValue hand₁) _ (fun e he => le_of_lt (hpos e he))).1
  have hW0q : (0 : ℚ) ≤ (winWeight (Hand.getValue hand₁) (simulateDealerHands
      (Hand.getValue dealerHand) remainingCards ([], 0) 0).1 : ℚ) := by exact_mod_cast hW0
  have hdiv := roundDouble_mono (div_nonneg hW0q (le_of_lt hTq))
    (div_le_div_of_nonneg_right hWq (le_of_lt hTq))
  exact roundDouble_mono
    (mul_nonneg (roundDouble_nonneg (div_nonneg hW0q (le_of_lt hTq))) (by norm_num))
    (mul_le_mul_of_nonneg_right hdiv (by norm_num))

theorem calculateWinProbability_mono_witness :
    2 ≤ [card "Hearts" "10" 10, card "Hearts" "6" 6].length ∧
    Hand.getValue [card "Spades" "10" 10, card "Spades" "7" 7]
      ≤ Hand.getValue [card "Spades" "10" 10, card "Spades" "9" 9] ∧
    Hand.getValue [card "Spades" "10" 10, card "Spades" "9" 9] ≤ 21 ∧
    ∃ q₁ q₂ : ℚ,
      calculateWinProbability [card "Spades" "10" 10, card "Spades" "7" 7]
        [card "Hearts" "10" 10, card "Hearts" "6" 6] undealt48 = some q₁ ∧
      calculateWinProbability [card "Spades" "10" 10, card "Spades" "9" 9]
        [card "Hearts" "10" 10, card "Hearts" "6" 6] undealt48 = some q₂ ∧ q₁ ≤ q₂ :=
  ⟨by decide, by decide, by decide,
    calculateWinProbability_mono _ _ _ undealt48 (by decide) (by decide) (by decide)⟩

/-- C12: any two hands whose card sequences are permutations of each other have the same total
under `getValue`. -/
theorem getValue_reorder (h₁ h₂ : Hand) (hp : h₁.Perm h₂) :
    Hand.getValue h₁ = Hand.getValue h₂ :=
  getValue_perm hp

theorem getValue_reorder_witness :
    [card "Clubs" "5" 5, card "Hearts" "A" 11, card "Spades" "K" 10].Perm
      [card "Spades" "K" 10, card "Clubs" "5" 5, card "Hearts" "A" 11] ∧
    Hand.getValue [card "Clubs" "5" 5, card "Hearts" "A" 11, card "Spades" "K" 10]
      = Hand.getValue [card "Spades" "K" 10, card "Clubs" "5" 5, card "Hearts" "A" 11] :=
  ⟨by decide, getValue_reorder _ _ (by decide)⟩

/-- C14: for every two-card hand made of one ace (value 11) and one card of rank 10, J, Q or K
(value 10), of any suits and in either order, `getValue` is 21 and `isBlackjack` is true. -/
theorem ace_ten_isBlackjack (s₁ s₂ r : String) (hr : r ∈ ["10", "J", "Q", "K"]) :
    Hand.getValue [card s₁ "A" 11, card s₂ r 10] = 21 ∧
    Hand.isBlackjack [card s₁ "A" 11, card s₂ r 10] = true ∧
    Hand.getValue [card s₂ r 10, card s₁ "A" 11] = 21 ∧
    Hand.isBlackjack [card s₂ r 10, card s₁ "A" 11] = true := by
  have hne : r ≠ "A" := by
    intro h
    subst h
    revert hr
    decide
  have hw : wrapInt 21 = 21 := by decide
  have h1 : Hand.getValue [card s₁ "A" 11, card s₂ r 10] = 21 := by
    simp [Hand.getValue, sumAndAces_eq, card, reduceAces, hne, hw]
  have h2 : Hand.getValue [card s₂ r 10, card s₁ "A" 11] = 21 := by
    simp [Hand.getValue, sumAndAces_eq, card, reduceAces, hne, hw]
  exact ⟨h1, by simp [Hand.isBlackjack, h1], h2, by simp [Hand.isBlackjack, h2]⟩

theorem ace_ten_isBlackjack_witness :
    "Q" ∈ ["10", "J", "Q", "K"] ∧
    Hand.getValue [card "Spades" "A" 11, card "Hearts" "Q" 10] = 21 ∧
    Hand.isBlackjack [card "Spades" "A" 11, card "Hearts" "Q" 10] = true ∧
    Hand.getValue [card "Hearts" "Q" 10, card "Spades" "A" 11] = 21 ∧
    Hand.isBlackjack [card "Hearts" "Q" 10, card "Spades" "A" 11] = true :=
  ⟨by decide, ace_ten_isBlackjack "Spades" "Hearts" "Q" (by decide)⟩

/-- C15: a freshly constructed deck holds exactly 52 cards with pairwise distinct (suit, rank)
pairs, one for each of the 4 suits and 13 ranks, its cursor is 0, and each card's value is the
value of its rank: 11 for A, n for the rank n in 2..10, and 10 for J, Q and K. -/
theorem fresh_deck :
    Deck.new.cards.length = 52 ∧ Deck.new.currentCard = 0 ∧
    (Deck.new.cards.map fun c => (c.suit, c.rank)).Nodup ∧
    suits.length = 4 ∧ suits.Nodup ∧ ranks.length = 13 ∧ ranks.Nodup ∧
    (∀ s ∈ suits, ∀ r ∈ ranks, ∃ c ∈ Deck.new.cards, c.suit = s ∧ c.rank = r) ∧
    (∀ c ∈ Deck.new.cards, c.suit ∈ suits ∧ c.rank ∈ ranks) ∧
    (∀ c ∈ Deck.new.cards, c.value = valueOfRank c.rank) := by
  refine ⟨by decide, by decide, by decide, by decide, by decide, by decide, by decide,
    by decide, by decide, by decide⟩

/-- Two increments of a map commute. -/
theorem incr_comm (m : IntMap) (a b : Int) : incr (incr m a) b = incr (incr m b) a := by
  induction m with
  | nil =>
    simp only [incr]
    split_ifs <;> first | omega | (subst_vars; rfl)
  | cons e m ih =>
    obtain ⟨k, c⟩ := e
    simp only [incr]
    split_ifs <;> (try simp only [incr]) <;> (try split_ifs) <;>
      first | omega | rfl | (subst_vars; rfl) | rw [ih]

theorem cardValueCounts_eq_foldl_values (rem : List Card) :
    cardValueCounts rem = (rem.map fun c => c.value).foldl incr [] := by
  simp [cardValueCounts, List.foldl_map]

/-- The grouping depends on the undealt cards only through the multiset of their values. -/
theorem cardValueCounts_perm {rem₁ rem₂ : List Card}
    (h : (rem₁.map fun c => c.value).Perm (rem₂.map fun c => c.value)) :
    cardValueCounts rem₁ = cardValueCounts rem₂ := by
  rw [cardValueCounts_eq_foldl_values, cardValueCounts_eq_foldl_values]
  exact h.foldl_eq' (fun x _ y _ z => incr_comm z x y) []

theorem eraseFirstOfValue_values {rem r : List Card} {v : Int}
    (h : eraseFirstOfValue rem v = some r) :
    (r.map fun c => c.value) = (rem.map fun c => c.value).erase v := by
  induction rem generalizing r with
  | nil => simp [eraseFirstOfValue] at h
  | cons c rem ih =>
    by_cases hc : c.value = v
    · simp [eraseFirstOfValue, hc] at h
      subst h; simp [hc]
    · simp only [eraseFirstOfValue, hc, ↓reduceIte, Option.map_eq_some'] at h
      obtain ⟨r', hr', rfl⟩ := h
      simp [ih hr', List.erase_cons, hc]

theorem eraseFirstOfValue_eq_none {rem : List Card} {v : Int}
    (h : eraseFirstOfValue rem v = none) : v ∉ rem.map fun c => c.value := by
  intro hv
  obtain ⟨c, hc, hcv⟩ := List.mem_map.mp hv
  obtain ⟨r, hr⟩ := eraseFirstOfValue_isSome rem v ⟨c, hc, hcv⟩
  rw [h] at hr
  cases hr

/-- The totals recorded by the enumeration depend on the undealt cards only through the multiset
of their values. -/
theorem leaves_totals_perm (k : Nat) : ∀ (v : Int) (rem₁ rem₂ : List Card),
    (rem₁.map fun c => c.value).Perm (rem₂.map fun c => c.value) →
    (leaves k v rem₁).map (fun t => t.1) = (leaves k v rem₂).map (fun t => t.1) := by
  induction k with
  | zero => intro v rem₁ rem₂ _; simp [leaves]
  | succ k ih =>
    intro v rem₁ rem₂ h
    by_cases hv : 17 ≤ v
    · simp [leaves, hv]
    · have hlen : rem₁.length = rem₂.length := by simpa using h.length_eq
      have hemp : rem₁.isEmpty = rem₂.isEmpty := by
        cases rem₁ <;> cases rem₂ <;> simp at hlen ⊢
      by_cases hr : rem₂.isEmpty = true
      · simp [leaves, hv, hr, hemp]
      · simp only [leaves, ge_iff_le, hv, ↓reduceIte, hr, hemp, Bool.false_eq_true,
          cardValueCounts_perm h, List.map_flatMap]
        congr 1
        funext cc
        cases h₁ : eraseFirstOfValue rem₁ cc.1 with
        | none =>
          cases h₂ : eraseFirstOfValue rem₂ cc.1 with
          | none => rfl
          | some r₂ =>
            exfalso
            have hmem : cc.1 ∈ rem₂.map fun c => c.value := by
              by_contra hn
              have := eraseFirstOfValue_values h₂
              have hl := eraseFirstOfValue_length h₂
              rw [List.erase_of_not_mem hn] at this
              have := congrArg List.length this
              simp at this
              omega
            exact eraseFirstOfValue_eq_none h₁ (h.symm.subset hmem)
        | some r₁ =>
          cases h₂ : eraseFirstOfValue rem₂ cc.1 with
          | none =>
            exfalso
            have hmem : cc.1 ∈ rem₁.map fun c => c.value := by
              by_contra hn
              have := eraseFirstOfValue_values h₁
              have hl := eraseFirstOfValue_length h₁
              rw [List.erase_of_not_mem hn] at this
              have := congrArg List.length this
              simp at this
              omega
            exact eraseFirstOfValue_eq_none h₂ (h.subset hmem)
          | some r₂ =>
            simp only
            apply ih
            rw [eraseFirstOfValue_values h₁, eraseFirstOfValue_values h₂]
            exact h.erase _

theorem recordAll_eq_foldl_totals (st : IntMap × Int) (ts : List (Int × List Card)) :
    recordAll st ts = (ts.map fun t => t.1).foldl record st := by
  simp [recordAll, List.foldl_map]

/-- C13: for every dealer total, any two lists of undealt cards with the same multiset of card
values, whatever their order, suits and ranks (in particular two lists that are permutations of
each other), give the same distribution and grand total from the simulator and the same result
of `calculateWinProbability`. -/
theorem simulate_values_perm (v : Int) (rem₁ rem₂ : List Card) (st : IntMap × Int)
    (playerHand dealerHand : Hand)
    (h : (rem₁.map fun c => c.value).Perm (rem₂.map fun c => c.value)) :
    simulateDealerHands v rem₁ st 0 = simulateDealerHands v rem₂ st 0 ∧
    calculateWinProbability playerHand dealerHand rem₁
      = calculateWinProbability playerHand dealerHand rem₂ := by
  have hsim : ∀ (v : Int) (st : IntMap × Int),
      simulateDealerHands v rem₁ st 0 = simulateDealerHands v rem₂ st 0 := by
    intro v st
    rw [simulate_eq_recordAll 6 v rem₁ st 0 rfl, simulate_eq_recordAll 6 v rem₂ st 0 rfl,
      recordAll_eq_foldl_totals, recordAll_eq_foldl_totals, leaves_totals_perm 6 v rem₁ rem₂ h]
  exact ⟨hsim v st, by simp only [calculateWinProbability, hsim]⟩

theorem simulate_values_perm_witness :
    ([card "Hearts" "K" 10, card "Spades" "A" 11, card "Clubs" "5" 5].map fun c => c.value).Perm
      ([card "Diamonds" "5" 5, card "Hearts" "10" 10, card "Hearts" "A" 11].map
        fun c => c.value) ∧
    simulateDealerHands 12 [card "Hearts" "K" 10, card "Spades" "A" 11, card "Clubs" "5" 5]
        ([], 0) 0
      = simulateDealerHands 12
        [card "Diamonds" "5" 5, card "Hearts" "10" 10, card "Hearts" "A" 11] ([], 0) 0 :=
  ⟨by decide,
    (simulate_values_perm 12 _ _ ([], 0) [] [] (by decide)).1⟩

theorem dealCard_of_lt (d : Deck) (h : d.currentCard < d.cards.length) :
    d.dealCard = some (d.cards.get ⟨d.currentCard, h⟩,
      { cards := d.cards, currentCard := d.currentCard + 1 }) := by
  have hg : d.cards.get? d.currentCard = some (d.cards.get ⟨d.currentCard, h⟩) :=
    List.get?_eq_get h
  simp only [Deck.dealCard, hg]

/-- In range, `k` calls of `dealCard` return the next `k` cards and advance the cursor by `k`. -/
theorem dealCards_of_le (k : Nat) : ∀ d : Deck, d.currentCard + k ≤ d.cards.length →
    Deck.dealCards k d = some ((d.cards.drop d.currentCard).take k,
      { cards := d.cards, currentCard := d.currentCard + k }) := by
  induction k with
  | zero => intro d _; simp [Deck.dealCards]
  | succ k ih =>
    intro d hd
    have hlt : d.currentCard < d.cards.length := by omega
    have hstep := ih { cards := d.cards, currentCard := d.currentCard + 1 } (by simp; omega)
    simp only [Deck.dealCards, dealCard_of_lt d hlt, hstep]
    have hdrop : d.cards.drop d.currentCard
        = d.cards.get ⟨d.currentCard, hlt⟩ :: d.cards.drop (d.currentCard + 1) := by
      simp
    rw [hdrop, List.take_succ_cons]
    simp [Nat.add_assoc, Nat.add_comm 1 k]

theorem deck_new_nodup : Deck.new.cards.Nodup := by decide

/-- C16: for every order of the 52 cards and every `k ≤ 52`, `k` calls of `dealCard` on the
shuffled deck succeed, and the `k` cards returned, in order, followed by `getRemainingCards()`
are the deck's card sequence; `getRemainingCards()` then has `52 - k` cards, as many as
`getCardsRemaining()` says, and contains none of the cards dealt; the card vector itself is
unchanged (queries are pure functions of the deck). -/
theorem dealt_cards_never_revisited (order : List Card) (k : Nat)
    (hperm : order.Perm Deck.new.cards) (hk : k ≤ 52) :
    ∃ (dealt : List Card) (d : Deck),
      Deck.dealCards k (Deck.shuffle Deck.new order) = some (dealt, d) ∧
      dealt.length = k ∧
      dealt ++ d.getRemainingCards = order ∧
      d.cards = order ∧
      d.getRemainingCards.length = 52 - k ∧
      d.getCardsRemaining = (d.getRemainingCards.length : Int) ∧
      ∀ c ∈ dealt, c ∉ d.getRemainingCards := by
  have hlen : order.length = 52 := by rw [hperm.length_eq]; decide
  have hnodup : order.Nodup := hperm.nodup_iff.mpr deck_new_nodup
  refine ⟨order.take k, { cards := order, currentCard := k }, ?_, ?_, ?_, rfl, ?_, ?_, ?_⟩
  · have := dealCards_of_le k (Deck.shuffle Deck.new order) (by simp [Deck.shuffle]; omega)
    simpa [Deck.shuffle] using this
  · simp [hlen, hk]
  · simp [Deck.getRemainingCards]
  · simp [Deck.getRemainingCards, hlen]
  · simp [Deck.getRemainingCards, Deck.getCardsRemaining, hlen]
    omega
  · intro c hc hc'
    have h := hnodup
    rw [← List.take_append_drop k order, List.nodup_append] at h
    exact h.2.2 hc hc'

theorem dealt_cards_never_revisited_witness :
    Deck.new.cards.Perm Deck.new.cards ∧ 4 ≤ 52 ∧
    ∃ (dealt : List Card) (d : Deck),
      Deck.dealCards 4 (Deck.shuffle Deck.new Deck.new.cards) = some (dealt, d) ∧
      dealt.length = 4 ∧
      dealt ++ d.getRemainingCards = Deck.new.cards ∧
      d.cards = Deck.new.cards ∧
      d.getRemainingCards.length = 52 - 4 ∧
      d.getCardsRemaining = (d.getRemainingCards.length : Int) ∧
      ∀ c ∈ dealt, c ∉ d.getRemainingCards :=
  ⟨List.Perm.refl _, by decide,
    dealt_cards_never_revisited Deck.new.cards 4 (List.Perm.refl _) (by decide)⟩

theorem hardTotal_ge_length (h : List Card) (hg : ∀ c ∈ h, wellValued c) :
    (h.length : Int) ≤ hardTotal h := by
  induction h with
  | nil => simp [hardTotal]
  | cons c h ih =>
    have ih := ih (fun c' hc' => hg c' (List.mem_cons_of_mem _ hc'))
    have hc := (hg c (List.mem_cons_self _ _)).2
    simp only [hardTotal, List.length_cons, Nat.cast_add, Nat.cast_one]
    split_ifs <;> omega

/-- A hand of at most 52 well-valued cards has a total of at least its number of cards. -/
theorem getValue_ge_length (h : List Card) (hg : ∀ c ∈ h, wellValued c) (hlen : h.length ≤ 52) :
    (h.length : Int) ≤ Hand.getValue h := by
  have hsum := sum_eq_hardTotal h (fun c hc => (hg c hc).1)
  obtain ⟨j, hj, he, _, _⟩ := reduceAces_spec (sumAndAces h).2 (sumAndAces h).1
  have hg' : Hand.getValue h = reduceAces (sumAndAces h).1 (sumAndAces h).2 := rfl
  rw [← hg'] at he
  have hb := sum_values_bounds h hg
  have hw : wrapInt (h.map fun c => c.value).sum = (h.map fun c => c.value).sum :=
    wrapInt_of_range (by omega) (by omega)
  rw [sumAndAces_eq, hw] at he hj
  simp only [hsum] at he hj
  have := hardTotal_ge_length h hg
  omega

theorem playerDraw_of_lt (g : Game) (hinv : roundInvariant g) (hlt : g.deck.currentCard < 52) :
    ∃ g', g.playerDraw = some g' ∧ roundInvariant g' ∧ g'.dealerHand = g.dealerHand ∧
      g'.playerHand.length = g.playerHand.length + 1 := by
  obtain ⟨hlen, hdeck, hcur, hp, hd⟩ := hinv
  have h : g.deck.currentCard < g.deck.cards.length := by omega
  refine ⟨Game.mk (Deck.mk g.deck.cards (g.deck.currentCard + 1))
      (Hand.addCard g.playerHand (g.deck.cards.get ⟨g.deck.currentCard, h⟩)) g.dealerHand,
    by simp only [Game.playerDraw, dealCard_of_lt g.deck h], ?_, rfl, by simp [Hand.addCard]⟩
  refine ⟨hlen, hdeck, by simp [Hand.addCard]; omega, ?_, hd⟩
  intro c hc
  simp only [Hand.addCard, List.mem_append, List.mem_singleton] at hc
  rcases hc with hc | rfl
  · exact hp c hc
  · exact hdeck _ (List.get_mem _ _ _)

theorem dealerDraw_of_lt (g : Game) (hinv : roundInvariant g) (hlt : g.deck.currentCard < 52) :
    ∃ g', g.dealerDraw = some g' ∧ roundInvariant g' ∧ g'.playerHand = g.playerHand ∧
      g'.dealerHand.length = g.dealerHand.length + 1 := by
  obtain ⟨hlen, hdeck, hcur, hp, hd⟩ := hinv
  have h : g.deck.currentCard < g.deck.cards.length := by omega
  refine ⟨Game.mk (Deck.mk g.deck.cards (g.deck.currentCard + 1)) g.playerHand
      (Hand.addCard g.dealerHand (g.deck.cards.get ⟨g.deck.currentCard, h⟩)),
    by simp only [Game.dealerDraw, dealCard_of_lt g.deck h], ?_, rfl, by simp [Hand.addCard]⟩
  refine ⟨hlen, hdeck, by simp [Hand.addCard]; omega, hp, ?_⟩
  intro c hc
  simp only [Hand.addCard, List.mem_append, List.mem_singleton] at hc
  rcases hc with hc | rfl
  · exact hd c hc
  · exact hdeck _ (List.get_mem _ _ _)

/-- The player's turn never deals from an exhausted deck: a hit is only possible on a hand that is
not bust, which holds at most 21 cards. -/
theorem playerTurn_spec (input : List Char) : ∀ g : Game, roundInvariant g →
    g.dealerHand.length = 2 → g.playerHand.length ≤ 21 →
    ∃ g' b, playerTurn input g = some (g', b) ∧ roundInvariant g' ∧
      g'.dealerHand = g.dealerHand ∧ g'.playerHand.length ≤ 22 := by
  induction input with
  | nil => intro g hinv _ hp; exact ⟨g, false, rfl, hinv, rfl, by omega⟩
  | cons choice input ih =>
    intro g hinv hd hp
    by_cases hh : choice = 'h' ∨ choice = 'H'
    · obtain ⟨g', hdraw, hinv', hd', hp'⟩ := playerDraw_of_lt g hinv (by
        have := hinv.2.2.1
        omega)
      by_cases hb : Hand.isBust g'.playerHand = true
      · exact ⟨g', true, by simp only [playerTurn, hh, ↓reduceIte, hdraw, hb], hinv', hd',
          by omega⟩
      · have hle : g'.playerHand.length ≤ 21 := by
          have h1 := getValue_ge_length g'.playerHand hinv'.2.2.2.1 (by omega)
          have h2 : ¬ Hand.getValue g'.playerHand > 21 := by
            simpa [Hand.isBust] using hb
          omega
        obtain ⟨g'', b, hturn, hinv'', hd'', hp''⟩ := ih g' hinv' (by rw [hd', hd]) hle
        refine ⟨g'', b, ?_, hinv'', by rw [hd'', hd'], hp''⟩
        simp only [playerTurn, hh, ↓reduceIte, hdraw, hb, Bool.false_eq_true, hturn]
    · by_cases hs : choice = 's' ∨ choice = 'S'
      · exact ⟨g, true, by simp only [playerTurn, hh, hs, ↓reduceIte], hinv, rfl, by omega⟩
      · obtain ⟨g'', b, hturn, hinv'', hd'', hp''⟩ := ih g hinv hd hp
        exact ⟨g'', b, by simp only [playerTurn, hh, hs, ↓reduceIte, hturn], hinv'', hd'', hp''⟩

/-- The dealer's turn terminates without dealing from an exhausted deck, with a total of at least
17: the dealer draws only below 17, i.e. on a hand of at most 16 cards. -/
theorem dealerTurn_spec (n : Nat) : ∀ g : Game, roundInvariant g →
    g.playerHand.length ≤ 22 → g.dealerHand.length + n = 17 →
    ∃ g', dealerTurn g = some g' ∧ roundInvariant g' ∧ g'.playerHand = g.playerHand ∧
      g'.dealerHand.length ≤ 17 ∧ 17 ≤ Hand.getValue g'.dealerHand := by
  induction n with
  | zero =>
    intro g hinv hp hd
    have h1 := getValue_ge_length g.dealerHand hinv.2.2.2.2 (by omega)
    have h17 : ¬ Hand.getValue g.dealerHand < 17 := by omega
    refine ⟨g, ?_, hinv, rfl, by omega, by omega⟩
    rw [dealerTurn]; simp only [h17, ↓reduceIte]
  | succ n ih =>
    intro g hinv hp hd
    by_cases h17 : Hand.getValue g.dealerHand < 17
    · obtain ⟨g', hdraw, hinv', hp', hd'⟩ := dealerDraw_of_lt g hinv (by
        have := hinv.2.2.1
        omega)
      obtain ⟨g'', hturn, hinv'', hp'', hd'', hv⟩ := ih g' hinv' (by rw [hp']; exact hp)
        (by omega)
      refine ⟨g'', ?_, hinv'', by rw [hp'', hp'], hd'', hv⟩
      rw [dealerTurn]
      simp only [h17, ↓reduceIte]
      have hlt : g.deck.currentCard < g.deck.cards.length := by
        have := hinv.2.2.1
        have := hinv.1
        omega
      have hdc := dealCard_of_lt g.deck hlt
      simp only [Game.dealerDraw, hdc, Option.some.injEq] at hdraw
      subst hdraw
      split
      · rename_i heq; rw [hdc] at heq; cases heq
      · rename_i c d heq
        rw [hdc] at heq
        cases heq
        exact hturn
    · refine ⟨g, ?_, hinv, rfl, by omega, by omega⟩
      rw [dealerTurn]; simp only [h17, ↓reduceIte]

theorem deck_new_wellValued : ∀ c ∈ Deck.new.cards, wellValued c := by
  unfold wellValued
  decide

/-- C18: for every order of the 52-card deck and every sequence of characters typed by the
player, one call of `play` never calls `dealCard` on an exhausted deck (the model returns a final
state), the cursor, which counts the calls of `dealCard`, ends below 52 and equals the number of
cards in the two hands, and when the round reaches the dealer's turn its draw loop terminates with
a dealer total of at least 17. -/
theorem play_never_exhausts_deck (order : List Card) (input : List Char)
    (hperm : order.Perm Deck.new.cards) :
    ∃ (g : Game) (e : Ending), play order input = some (g, e) ∧
      g.deck.currentCard < 52 ∧
      g.deck.currentCard = g.playerHand.length + g.dealerHand.length ∧
      (e = Ending.settled → 17 ≤ Hand.getValue g.dealerHand) := by
  have hlen : order.length = 52 := by rw [hperm.length_eq]; decide
  have hval : ∀ c ∈ order, wellValued c := fun c hc =>
    deck_new_wellValued c (hperm.mem_iff.mp hc)
  have hinv₀ : roundInvariant
      { deck := Deck.shuffle Deck.new order, playerHand := [], dealerHand := [] } :=
    ⟨hlen, hval, rfl, by simp, by simp⟩
  obtain ⟨g₁, h₁, hinv₁, hd₁, hp₁⟩ := playerDraw_of_lt _ hinv₀ (by simp [Deck.shuffle])
  obtain ⟨g₂, h₂, hinv₂, hp₂, hd₂⟩ := dealerDraw_of_lt g₁ hinv₁ (by
    have := hinv₁.2.2.1
    simp at hd₁ hp₁
    simp [hd₁, hp₁] at this
    omega)
  obtain ⟨g₃, h₃, hinv₃, hd₃, hp₃⟩ := playerDraw_of_lt g₂ hinv₂ (by
    have := hinv₂.2.2.1
    simp at hd₁ hp₁
    simp [hd₁, hp₁, hd₂, hp₂] at this
    omega)
  obtain ⟨g, h₄, hinv, hp₄, hd₄⟩ := dealerDraw_of_lt g₃ hinv₃ (by
    have := hinv₃.2.2.1
    simp at hd₁ hp₁
    simp [hd₁, hp₁, hd₂, hp₂, hd₃, hp₃] at this
    omega)
  have hplen : g.playerHand.length = 2 := by
    simp at hd₁ hp₁
    rw [hp₄, hp₃, hp₂, hp₁]
  have hdlen : g.dealerHand.length = 2 := by
    simp at hd₁ hp₁
    rw [hd₄, hd₃, hd₂, hd₁]; rfl
  have hcur : g.deck.currentCard = 4 := by
    have := hinv.2.2.1
    omega
  simp only [play, h₁, h₂, h₃, h₄]
  split_ifs
  · exact ⟨g, _, rfl, by omega, hinv.2.2.1, by intro h; cases h⟩
  · exact ⟨g, _, rfl, by omega, hinv.2.2.1, by intro h; cases h⟩
  · exact ⟨g, _, rfl, by omega, hinv.2.2.1, by intro h; cases h⟩
  · obtain ⟨g', b, hturn, hinv', hd', hp'⟩ := playerTurn_spec input g hinv hdlen (by omega)
    have hcur' := hinv'.2.2.1
    have hdlen' : g'.dealerHand.length = 2 := by rw [hd', hdlen]
    cases b with
    | false =>
      simp only [hturn]
      exact ⟨g', _, rfl, by omega, hcur', by intro h; cases h⟩
    | true =>
      simp only [hturn]
      split_ifs
      · exact ⟨g', _, rfl, by omega, hcur', by intro h; cases h⟩
      · obtain ⟨g'', hdt, hinv'', hp'', hd'', hv⟩ := dealerTurn_spec 15 g' hinv' hp'
          (by omega)
        simp only [hdt]
        have hcur'' := hinv''.2.2.1
        have : g''.playerHand.length ≤ 22 := by rw [hp'']; exact hp'
        exact ⟨g'', _, rfl, by omega, hcur'', fun _ => hv⟩

theorem play_never_exhausts_deck_witness :
    Deck.new.cards.Perm Deck.new.cards ∧
    ∃ (g : Game) (e : Ending), play Deck.new.cards ['h', 'x', 's'] = some (g, e) ∧
      g.deck.currentCard < 52 ∧
      g.deck.currentCard = g.playerHand.length + g.dealerHand.length ∧
      (e = Ending.settled → 17 ≤ Hand.getValue g.dealerHand) :=
  ⟨List.Perm.refl _, play_never_exhausts_deck Deck.new.cards ['h', 'x', 's'] (List.Perm.refl _)⟩

end BlackJack
